import Mathlib

/-!
Verification of the algorithm-visualizer core (DAAproject.py).

This file gives a shallow embedding of the event-producing algorithm
generators (bubble, selection, insertion, merge, quick sort and subset-sum
backtracking), of the playback controller (start / pause / step / run-step),
and of the array-regeneration helpers (randomize / reset), and proves the
specification claims about them.

Conventions of the embedding:
- Python lists of ints become terms of type List Int; indexed reads arr[i]
  become List.getD arr i 0 and writes arr[i] = v become List.set arr i v
  (all in-range in the source; List.set is the identity out of range).
- A Python generator becomes a function computing the full (finite) list of
  the events it yields, together with the final value of its working array;
  the events are produced in exactly the order the source yields them.
- for / while loops become structural recursions whose fuel argument counts
  the remaining iterations exactly as the source loop bounds prescribe.
- Python in-place mutation of a caller-supplied list object is modelled
  separately by a small heap whose cells are lists (see the Heap section).
-/

/-- Operation events yielded by the generators: a faithful rendering of the
tagged dictionaries produced in the source (the "type" key becomes the
constructor; tuple / list / scalar payloads become fields).  The done event
optionally carries an array snapshot: the sorting generators attach one,
the subset-sum generator does not. -/
inductive Op where
  | compare (i j : Nat)
  | swap (i j : Nat) (array : List Int)
  | highlight (indices : List Nat)
  | shift (i j : Nat) (array : List Int)
  | insert (index : Nat) (array : List Int)
  | mergewrite (index : Nat) (value : Int) (array : List Int)
  | decide (index : Nat) (choice : Bool) (chosen : List Bool) (sum : Int)
  | check (chosen : List Bool) (sum : Int)
  | solution (chosen : List Bool) (sum : Int)
  | done (array : Option (List Int))
deriving DecidableEq, Repr

/-- Whether an event is the terminal done event. -/
def Op.isDone : Op → Bool
  | Op.done _ => true
  | _ => false

/-- Whether an event is a subset-sum leaf event (check or solution). -/
def Op.isLeaf : Op → Bool
  | Op.check _ _ => true
  | Op.solution _ _ => true
  | _ => false

/-- Python simultaneous swap arr[i], arr[j] = arr[j], arr[i]: both right-hand
sides are read first, then both cells are written. -/
def swapList (l : List Int) (i j : Nat) : List Int :=
  (l.set i (l.getD j 0)).set j (l.getD i 0)

/-- Inner loop of bubble_sort_generator: for j in range(0, n-i-1), started at
position j with cnt iterations remaining.  Yields a compare event before each
comparison and, when arr[j] > arr[j+1], swaps and yields a swap event carrying
a snapshot of the array after the exchange. -/
def bubbleInner (arr : List Int) (j : Nat) : Nat → List Int × List Op
  | 0 => (arr, [])
  | cnt+1 =>
    if arr.getD j 0 > arr.getD (j+1) 0 then
      let arr2 := swapList arr j (j+1)
      let r := bubbleInner arr2 (j+1) cnt
      (r.1, Op.compare j (j+1) :: Op.swap j (j+1) arr2 :: r.2)
    else
      let r := bubbleInner arr (j+1) cnt
      (r.1, Op.compare j (j+1) :: r.2)

/-- Outer loop of bubble_sort_generator: for i in range(n), with rem
iterations remaining; each iteration runs the inner loop over
j in range(0, n-i-1). -/
def bubbleOuter (n : Nat) (arr : List Int) (i : Nat) : Nat → List Int × List Op
  | 0 => (arr, [])
  | rem+1 =>
    let p := bubbleInner arr 0 (n - i - 1)
    let r := bubbleOuter n p.1 (i+1) rem
    (r.1, p.2 ++ r.2)

/-- bubble_sort_generator: final working array together with the full event
sequence, which ends with a done event carrying a snapshot of the final
array. -/
def bubbleRun (arr : List Int) : List Int × List Op :=
  let n := arr.length
  let r := bubbleOuter n arr 0 n
  (r.1, r.2 ++ [Op.done (some r.1)])

/-- Event sequence yielded by bubble_sort_generator(arr). -/
def bubble_sort_generator (arr : List Int) : List Op :=
  (bubbleRun arr).2

/-- Inner loop of selection_sort_generator: for j in range(i+1, n) with cnt
iterations remaining, tracking the current minimum index.  Yields a compare
event per scan step and a highlight event each time the running minimum
changes; returns the final minimum index. -/
def selInner (arr : List Int) (minIdx j : Nat) : Nat → Nat × List Op
  | 0 => (minIdx, [])
  | cnt+1 =>
    if arr.getD j 0 < arr.getD minIdx 0 then
      let r := selInner arr j (j+1) cnt
      (r.1, Op.compare minIdx j :: Op.highlight [j] :: r.2)
    else
      let r := selInner arr minIdx (j+1) cnt
      (r.1, Op.compare minIdx j :: r.2)

/-- Outer loop of selection_sort_generator: for i in range(n); after the scan
the found minimum is swapped into position i, with a swap event, only when
its index differs from i. -/
def selOuter (n : Nat) (arr : List Int) (i : Nat) : Nat → List Int × List Op
  | 0 => (arr, [])
  | rem+1 =>
    let p := selInner arr i (i+1) (n - i - 1)
    if p.1 ≠ i then
      let arr2 := swapList arr i p.1
      let r := selOuter n arr2 (i+1) rem
      (r.1, p.2 ++ Op.swap i p.1 arr2 :: r.2)
    else
      let r := selOuter n arr (i+1) rem
      (r.1, p.2 ++ r.2)

/-- selection_sort_generator: final working array and full event sequence. -/
def selectionRun (arr : List Int) : List Int × List Op :=
  let n := arr.length
  let r := selOuter n arr 0 n
  (r.1, r.2 ++ [Op.done (some r.1)])

/-- Event sequence yielded by selection_sort_generator(arr). -/
def selection_sort_generator (arr : List Int) : List Op :=
  (selectionRun arr).2

/-- While loop of insertion_sort_generator, in terms of jp1 = j + 1 (the
source decrements j from i-1 down to -1; jp1 stays a natural number).  While
jp1 > 0 and arr[jp1-1] > key: yield a compare event, copy arr[jp1-1] into
arr[jp1], decrement, and yield a shift event with a snapshot.  Returns the
final array, the final jp1 (the landing position of the key), and the
events. -/
def insWhileLoop (key : Int) (arr : List Int) : Nat → List Int × Nat × List Op
  | 0 => (arr, 0, [])
  | j+1 =>
    if arr.getD j 0 > key then
      let arr2 := arr.set (j+1) (arr.getD j 0)
      let r := insWhileLoop key arr2 j
      (r.1, r.2.1, Op.compare j (j+1) :: Op.shift j (j+1) arr2 :: r.2.2)
    else (arr, j+1, [])

/-- Outer loop of insertion_sort_generator: for i in range(1, len(arr)) with
rem iterations remaining.  Yields a highlight event for the lifted key, runs
the shifting while loop, writes the key at its landing position and yields an
insert event with a snapshot. -/
def insOuter (arr : List Int) (i : Nat) : Nat → List Int × List Op
  | 0 => (arr, [])
  | rem+1 =>
    let key := arr.getD i 0
    let w := insWhileLoop key arr i
    let arr2 := w.1.set w.2.1 key
    let r := insOuter arr2 (i+1) rem
    (r.1, Op.highlight [i] :: (w.2.2 ++ Op.insert w.2.1 arr2 :: r.2))

/-- insertion_sort_generator: final working array and full event sequence. -/
def insertionRun (arr : List Int) : List Int × List Op :=
  let r := insOuter arr 1 (arr.length - 1)
  (r.1, r.2 ++ [Op.done (some r.1)])

/-- Event sequence yielded by insertion_sort_generator(arr). -/
def insertion_sort_generator (arr : List Int) : List Op :=
  (insertionRun arr).2

/-- merge_range of merge_sort_generator: two-pointer merge of aux[i:m) and
aux[m:r) into arr starting at k, followed by the two drain loops.  Each write
is followed by a mergewrite event carrying the written index k-1, the value
arr[k-1] read back after the write, and a snapshot. -/
def mergeRange (aux : List Int) (m r : Nat) (arr : List Int) (i j k : Nat) :
    List Int × List Op :=
  if h : i < m ∧ j < r then
    if aux.getD i 0 ≤ aux.getD j 0 then
      let arr2 := arr.set k (aux.getD i 0)
      let rest := mergeRange aux m r arr2 (i+1) j (k+1)
      (rest.1, Op.compare i j :: Op.mergewrite k (arr2.getD k 0) arr2 :: rest.2)
    else
      let arr2 := arr.set k (aux.getD j 0)
      let rest := mergeRange aux m r arr2 i (j+1) (k+1)
      (rest.1, Op.compare i j :: Op.mergewrite k (arr2.getD k 0) arr2 :: rest.2)
  else if hi : i < m then
    let arr2 := arr.set k (aux.getD i 0)
    let rest := mergeRange aux m r arr2 (i+1) j (k+1)
    (rest.1, Op.mergewrite k (arr2.getD k 0) arr2 :: rest.2)
  else if hj : j < r then
    let arr2 := arr.set k (aux.getD j 0)
    let rest := mergeRange aux m r arr2 i (j+1) (k+1)
    (rest.1, Op.mergewrite k (arr2.getD k 0) arr2 :: rest.2)
  else (arr, [])
termination_by (m - i) + (r - j)
decreasing_by all_goals omega

/-- Block copy of merge_sort_generator: for k in range(l, r): aux[k] = arr[k],
started at position k with cnt iterations remaining. -/
def copyRange (arr : List Int) (aux : List Int) (k : Nat) : Nat → List Int
  | 0 => aux
  | cnt+1 => copyRange arr (aux.set k (arr.getD k 0)) (k+1) cnt

/-- Pass loop of merge_sort_generator: for i in range(0, n, 2*width); each
block [i, r) first copies arr into aux on [i, r), then merges the two halves
back into arr.  Returns the final arr, the final aux and the events. -/
def mergePass (n w : Nat) (hw : 0 < w) (arr aux : List Int) (i : Nat) :
    List Int × List Int × List Op :=
  if h : i < n then
    let m := min (i + w) n
    let r := min (i + 2*w) n
    let aux2 := copyRange arr aux i (r - i)
    let mr := mergeRange aux2 m r arr i m i
    let rest := mergePass n w hw mr.1 aux2 (i + 2*w)
    (rest.1, rest.2.1, mr.2 ++ rest.2.2)
  else (arr, aux, [])
termination_by n - i
decreasing_by omega

/-- Width loop of merge_sort_generator: while width < n, run a pass and
double the width. -/
def mergeWidths (n : Nat) (arr aux : List Int) (w : Nat) (hw : 0 < w) :
    List Int × List Op :=
  if h : w < n then
    let p := mergePass n w hw arr aux 0
    let rest := mergeWidths n p.1 p.2.1 (2*w) (by omega)
    (rest.1, p.2.2 ++ rest.2)
  else (arr, [])
termination_by n - w
decreasing_by omega

/-- merge_sort_generator: aux starts as a copy of arr, width starts at 1;
the events end with a done event carrying the final array. -/
def mergeRun (arr : List Int) : List Int × List Op :=
  let n := arr.length
  let r := mergeWidths n arr arr 1 (by omega)
  (r.1, r.2 ++ [Op.done (some r.1)])

/-- Event sequence yielded by merge_sort_generator(arr). -/
def merge_sort_generator (arr : List Int) : List Op :=
  (mergeRun arr).2

/-- Partition scan of quick_sort_generator (Lomuto): for j in range(low, high)
with fuel iterations remaining; i is the boundary of the below-pivot region.
Yields a compare event against the pivot position per scan step and a swap
event with snapshot whenever arr[j] < pivot.  Returns the final array, the
final i and the events.  Indices are integers in the source; all values that
reach an array access are nonnegative, so toNat is exact there. -/
def qsInner (high pivot : Int) (arr : List Int) (i j : Int) :
    Nat → List Int × Int × List Op
  | 0 => (arr, i, [])
  | fuel+1 =>
    if arr.getD j.toNat 0 < pivot then
      let arr2 := swapList arr i.toNat j.toNat
      let r := qsInner high pivot arr2 (i+1) (j+1) fuel
      (r.1, r.2.1, Op.compare j.toNat high.toNat :: Op.swap i.toNat j.toNat arr2 :: r.2.2)
    else
      let r := qsInner high pivot arr i (j+1) fuel
      (r.1, r.2.1, Op.compare j.toNat high.toNat :: r.2.2)

/-- Weight of the explicit range stack of quick_sort_generator, used as the
termination measure of the main loop. -/
def stackMeasure (stack : List (Int × Int)) : Nat :=
  stack.foldr (fun e acc => 2 * (e.2 + 1 - e.1).toNat + 1 + acc) 0

/-- Main loop of quick_sort_generator: pop a range; if low < high, partition
with pivot arr[high] (emitting compare / swap events), place the pivot with a
final swap event, and push the two sub-ranges, (low, p-1) below
(p+1, high). -/
def quickLoop (arr : List Int) (stack : List (Int × Int)) : List Int × List Op :=
  match stack with
  | [] => (arr, [])
  | (low, high) :: rest =>
    if h : low < high then
      let pivot := arr.getD high.toNat 0
      let part := qsInner high pivot arr low low (high - low).toNat
      let p := part.2.1
      let arr3 := swapList part.1 p.toNat high.toNat
      let r := quickLoop arr3 ((p+1, high) :: (low, p-1) :: rest)
      (r.1, part.2.2 ++ Op.swap p.toNat high.toNat arr3 :: r.2)
    else
      quickLoop arr rest
termination_by stackMeasure stack
decreasing_by
  · have hb : ∀ (fuel : Nat) (a : List Int) (i j : Int),
        i ≤ (qsInner high (arr.getD high.toNat 0) a i j fuel).2.1 ∧
        (qsInner high (arr.getD high.toNat 0) a i j fuel).2.1 ≤ i + fuel := by
      intro fuel
      induction fuel with
      | zero => intro a i j; simp [qsInner]
      | succ fl ih =>
        intro a i j
        simp only [qsInner]
        by_cases hc : a.getD j.toNat 0 < arr.getD high.toNat 0
        · simp only [if_pos hc]
          have := ih (swapList a i.toNat j.toNat) (i+1) (j+1)
          constructor <;> omega
        · simp only [if_neg hc]
          have := ih a i (j+1)
          constructor <;> omega
    have := hb (high - low).toNat arr low low
    simp only [stackMeasure, List.foldr] at *
    omega
  · simp only [stackMeasure, List.foldr]
    omega

/-- quick_sort_generator: the stack is seeded with (0, len(arr)-1); the
events end with a done event carrying the final array. -/
def quickRun (arr : List Int) : List Int × List Op :=
  let r := quickLoop arr [(0, (arr.length : Int) - 1)]
  (r.1, r.2 ++ [Op.done (some r.1)])

/-- Event sequence yielded by quick_sort_generator(arr). -/
def quick_sort_generator (arr : List Int) : List Op :=
  (quickRun arr).2

/-- Recursive backtrack of subset_sum_generator, with fuel = n - i (the source
recurses until i == n).  At a leaf it yields a check event with the chosen-set
copy and the running sum.  At an internal node it explores exclude before
include, yielding a decide event (carrying the chosen set after applying the
choice) before each branch, and undoes its flag after both branches.  Returns
the restored chosen list and the events. -/
def backtrack (arr : List Int) (chosen : List Bool) (i : Nat) (sum : Int) :
    Nat → List Bool × List Op
  | 0 => (chosen, [Op.check chosen sum])
  | fuel+1 =>
    let ch1 := chosen.set i false
    let r1 := backtrack arr ch1 (i+1) sum fuel
    let ch2 := r1.1.set i true
    let s2 := sum + arr.getD i 0
    let r2 := backtrack arr ch2 (i+1) s2 fuel
    let ch3 := r2.1.set i false
    (ch3, Op.decide i false ch1 sum :: (r1.2 ++ Op.decide i true ch2 s2 :: r2.2))

/-- Outer loop of subset_sum_generator: a leaf check event whose sum equals
the target is re-tagged as a solution event before being yielded. -/
def reclassify (target : Int) : Op → Op
  | Op.check ch s => if s = target then Op.solution ch s else Op.check ch s
  | e => e

/-- Event sequence yielded by subset_sum_generator(arr, target): the
backtracking events, reclassified, followed by a done event with no array. -/
def subset_sum_generator (arr : List Int) (target : Int) : List Op :=
  let n := arr.length
  let r := backtrack arr (List.replicate n false) 0 0 n
  r.2.map (reclassify target) ++ [Op.done none]

/-- Generator dispatch shared by start() and step(): the six recognized
algorithm names, each constructing a generator over the array it is given;
any other name yields no generator. -/
def genFor (alg : String) (arr : List Int) (target : Int) : Option (List Op) :=
  if alg = "Bubble Sort" then some (bubble_sort_generator arr)
  else if alg = "Selection Sort" then some (selection_sort_generator arr)
  else if alg = "Insertion Sort" then some (insertion_sort_generator arr)
  else if alg = "Merge Sort" then some (merge_sort_generator arr)
  else if alg = "Quick Sort" then some (quick_sort_generator arr)
  else if alg = "Subset Sum" then some (subset_sum_generator arr target)
  else none

/-- Observable side effects of the controller: the message box, the timer
scheduled by self.after, and the cancellation done by self.after_cancel. -/
inductive Eff where
  | showError (msg : String)
  | schedule (delay : Int)
  | cancelTimer
deriving DecidableEq, Repr

/-- State of the AlgorithmVisualizerPro controller: the running flag, the
active generator (modelled by its remaining event list), the most recently
consumed operation, whether an after-id has been stored, the displayed
array, and the current widget values (algorithm selection, subset-sum
target, speed slider) plus the status line. -/
structure CState where
  running : Bool
  generator : Option (List Op)
  currentOp : Option Op
  afterId : Bool
  array : List Int
  algo : String
  target : Int
  speed : ℚ
  status : String
deriving DecidableEq

/-- Delay computed in _run_step: int(max(1, 300 - speed)).  The slider value
is a float, modelled as a rational; int() truncates toward zero, which on
this positive argument is the floor. -/
def runStepDelay (speed : ℚ) : Int := ⌊max 1 (300 - speed)⌋

/-- The _apply_operation method: for events that carry an array snapshot the
displayed array is replaced by the snapshot (a done event without one leaves
it unchanged); every event updates the status line. -/
def applyOperation (s : CState) (op : Op) : CState :=
  match op with
  | Op.compare i j => {s with status := s!"Comparing indices {i} and {j}"}
  | Op.swap i j a => {s with array := a, status := s!"Swapped indices {i} and {j}"}
  | Op.shift _ _ a => {s with array := a, status := "Shifting elements"}
  | Op.insert idx a => {s with array := a, status := s!"Inserted at index {idx}"}
  | Op.mergewrite idx _ a =>
      {s with array := a, status := s!"Writing merged value at index {idx}"}
  | Op.highlight idxs => {s with status := s!"Highlight index {idxs}"}
  | Op.decide idx choice _ _ =>
      let c := if choice then "Include" else "Exclude"
      {s with status := s!"Index {idx} -> {c}"}
  | Op.check _ sm => {s with status := s!"Checked sum = {sm}"}
  | Op.solution _ sm => {s with status := s!"Solution! sum={sm}"}
  | Op.done oa =>
      match oa with
      | some a => {s with array := a, status := "Done"}
      | none => {s with status := "Done"}

/-- One iteration of the _run_step callback: return immediately unless
running with a live generator; otherwise pull the next operation, apply it
and schedule the next iteration, or on exhaustion clear the run state. -/
def runStep (s : CState) : CState × List Eff :=
  match s.generator with
  | none => (s, [])
  | some g =>
    if s.running = false then (s, [])
    else
      match g with
      | op :: rest =>
        let s2 := applyOperation {s with currentOp := some op, generator := some rest} op
        ({s2 with afterId := true}, [Eff.schedule (runStepDelay s.speed)])
      | [] =>
        ({s with running := false, generator := none, currentOp := none,
                 status := "Finished"}, [])

/-- The start method: a no-op when already running; otherwise set the
running flag and status, construct a generator over a copy of the array, and
kick off the animation loop; an unrecognized algorithm name shows an error
box and clears the running flag, leaving any previous generator in place. -/
def start (s : CState) : CState × List Eff :=
  if s.running then (s, [])
  else
    let s1 := {s with running := true, status := "Running " ++ s.algo ++ "..."}
    match genFor s.algo s.array s.target with
    | some g => runStep {s1 with generator := some g}
    | none =>
      ({s1 with running := false}, [Eff.showError ("Unknown algorithm: " ++ s.algo)])

/-- The pause method: a no-op when not running; otherwise clear the running
flag, cancel the pending timer if an after-id was stored (the stored id
itself is kept), and set the status line. -/
def pause (s : CState) : CState × List Eff :=
  if s.running = false then (s, [])
  else
    ({s with running := false, status := "Paused"},
     if s.afterId then [Eff.cancelTimer] else [])

/-- The step method: pause first if running; construct a generator over a
copy of the array if none is active (showing an error and aborting on an
unrecognized name); then pull exactly one operation and apply it, or on
exhaustion drop the generator and report Finished. -/
def step (s : CState) : CState × List Eff :=
  let p := if s.running then pause s else (s, [])
  let s1 := p.1
  match s1.generator with
  | some g =>
    match g with
    | op :: rest =>
      (applyOperation {s1 with currentOp := some op, generator := some rest} op, p.2)
    | [] => ({s1 with generator := none, status := "Finished"}, p.2)
  | none =>
    match genFor s1.algo s1.array s1.target with
    | none => (s1, p.2 ++ [Eff.showError ("Unknown algorithm: " ++ s1.algo)])
    | some g =>
      match g with
      | op :: rest =>
        (applyOperation {s1 with currentOp := some op, generator := some rest} op, p.2)
      | [] => ({s1 with generator := none, status := "Finished"}, p.2)

/-- Array regenerated by the randomize method: random values indexed by the
draw source rng, of length max(2, min(200, size)); size is the spinbox value,
an integer that the clamp makes nonnegative before range() sees it. -/
def randomizeArray (rng : Nat → Int) (size : Int) : List Int :=
  (List.range (max 2 (min 200 size)).toNat).map rng

/-- Array regenerated by the reset method, whose clamp is
max(5, min(200, size)). -/
def resetArray (rng : Nat → Int) (size : Int) : List Int :=
  (List.range (max 5 (min 200 size)).toNat).map rng

/-- A heap of Python list objects: cell r of the heap is the list object a
reference points to.  Used to model in-place mutation and copying. -/
abbrev Heap := List (List Int)

/-- Final contents of the working array after consuming the generator for
alg to exhaustion.  The subset-sum generator mutates only its chosen list,
never arr; an unrecognized name constructs no generator at all. -/
def finalArrayOf (alg : String) (arr : List Int) (target : Int) : List Int :=
  if alg = "Bubble Sort" then (bubbleRun arr).1
  else if alg = "Selection Sort" then (selectionRun arr).1
  else if alg = "Insertion Sort" then (insertionRun arr).1
  else if alg = "Merge Sort" then (mergeRun arr).1
  else if alg = "Quick Sort" then (quickRun arr).1
  else arr

/-- Consuming a generator built over the list object in cell r: every write
the generator performs (arr[j] = v and the tuple swaps) goes through that
same object, so after exhaustion the cell holds the generator's final
working array; no other cell is touched. -/
def consumeOnHeap (alg : String) (target : Int) (h : Heap) (r : Nat) : Heap :=
  h.set r (finalArrayOf alg (h.getD r []) target)

/-- The heap-level effect of start() followed by consuming the run: arr_copy
= self.array.copy() allocates a fresh cell holding a copy of cell r, and the
generator is constructed over, and consumes, that fresh cell.  Returns the
final heap and the reference of the copy. -/
def startOnHeap (alg : String) (target : Int) (h : Heap) (r : Nat) : Heap × Nat :=
  let arrCopy := h.getD r []
  (consumeOnHeap alg target (h ++ [arrCopy]) h.length, h.length)

example : subset_sum_generator [2, 3] 5 =
    [Op.decide 0 false [false, false] 0,
     Op.decide 1 false [false, false] 0, Op.check [false, false] 0,
     Op.decide 1 true [false, true] 3, Op.check [false, true] 3,
     Op.decide 0 true [true, false] 2,
     Op.decide 1 false [true, false] 2, Op.check [true, false] 2,
     Op.decide 1 true [true, true] 5, Op.solution [true, true] 5,
     Op.done none] := by decide

example : bubble_sort_generator [5, 3, 1] =
    [Op.compare 0 1, Op.swap 0 1 [3, 5, 1], Op.compare 1 2, Op.swap 1 2 [3, 1, 5],
     Op.compare 0 1, Op.swap 0 1 [1, 3, 5], Op.done (some [1, 3, 5])] := by decide

example : (insertionRun [3, 1, 2]).1 = [1, 2, 3] := by decide

example : (selectionRun [3, 1, 2]).1 = [1, 2, 3] := by decide

/-- One bubbling pass of the inner loop of bubble sort, as a pure list
function: carry x forward over l, at each comparison keeping the smaller
element in place and carrying the larger one onward. -/
def bubbleCarry (x : Int) : List Int → List Int
  | [] => [x]
  | b :: rest => if x > b then b :: bubbleCarry x rest else x :: bubbleCarry b rest

/-- Pure form of the insertion-sort while loop acting on the reversed
prefix: walk over elements greater than the key and drop the key in front
of the first element not greater than it. -/
def insAux (key : Int) : List Int → List Int
  | [] => [key]
  | a :: ra => if a > key then a :: insAux key ra else key :: a :: ra

/-- Pure two-pointer merge favoring the left run on ties; the list-level
counterpart of merge_range. -/
def mergeLists (a b : List Int) : List Int :=
  match a, b with
  | [], ys => ys
  | x :: xs, [] => x :: xs
  | x :: xs, y :: ys =>
    if x ≤ y then x :: mergeLists xs (y :: ys) else y :: mergeLists (x :: xs) ys
termination_by a.length + b.length

/-- The sublist of positions [a, b). -/
def sliceList (l : List Int) (a b : Nat) : List Int := (l.drop a).take (b - a)

/-- Write the values vs at consecutive positions starting at k. -/
def overwrite (arr : List Int) (k : Nat) : List Int → List Int
  | [] => arr
  | v :: vs => overwrite (arr.set k v) (k+1) vs

/-- Replay one event against the array state cur: events without an array
snapshot leave cur unchanged; an event carrying a snapshot is accepted only
when the snapshot is exactly cur updated by the effect the event describes
(a done snapshot must equal cur itself), in which case the snapshot becomes
the new state. -/
def replayStep (cur : List Int) : Op → Option (List Int)
  | Op.compare _ _ => some cur
  | Op.highlight _ => some cur
  | Op.swap i j a => if a = swapList cur i j then some a else none
  | Op.shift i j a =>
      if j = i + 1 ∧ a = cur.set j (cur.getD i 0) then some a else none
  | Op.insert idx a => if a = cur.set idx (a.getD idx 0) then some a else none
  | Op.mergewrite idx v a => if a = cur.set idx v then some a else none
  | Op.decide _ _ _ _ => some cur
  | Op.check _ _ => some cur
  | Op.solution _ _ => some cur
  | Op.done (some a) => if a = cur then some a else none
  | Op.done none => some cur

/-- Replay a whole event list from the state cur, failing if any snapshot
disagrees with the state reconstructed from the events before it. -/
def replayFinal (cur : List Int) : List Op → Option (List Int)
  | [] => some cur
  | e :: es =>
    match replayStep cur e with
    | some c => replayFinal c es
    | none => none

/-- Sum of the elements of arr selected by the chosen mask. -/
def sumChosen : List Int → List Bool → Int
  | a :: as, c :: cs => (if c then a else 0) + sumChosen as cs
  | _, _ => 0

/-- Specification bundle for one sorting generator run: the final array is
a sorted permutation of the input, and the events are done-free loop events
followed by exactly one done event carrying the final array. -/
def SortRunOk (run : List Int → List Int × List Op) (arr : List Int) : Prop :=
  (run arr).1.Perm arr ∧ List.Sorted (· ≤ ·) (run arr).1 ∧
  ∃ pre, (run arr).2 = pre ++ [Op.done (some (run arr).1)] ∧
    ∀ e ∈ pre, e.isDone = false

/-- Position q lies inside the stack range e = (l, h). -/
def InRange (e : Int × Int) (q : Nat) : Prop := e.1 ≤ (q : Int) ∧ (q : Int) ≤ e.2

/-- Two positions covered by one common pending range of the stack. -/
def SameRange (stack : List (Int × Int)) (p q : Nat) : Prop :=
  ∃ e ∈ stack, InRange e p ∧ InRange e q

/-- The array is sorted except possibly inside pending ranges: any two
positions not sharing a pending range are already ordered. -/
def AlmostSorted (arr : List Int) (stack : List (Int × Int)) : Prop :=
  ∀ p q : Nat, p < q → q < arr.length → ¬ SameRange stack p q →
    arr.getD p 0 ≤ arr.getD q 0

/-- Pending ranges are pairwise disjoint. -/
def StackDisjoint (stack : List (Int × Int)) : Prop :=
  List.Pairwise (fun e1 e2 => e1.2 < e2.1 ∨ e2.2 < e1.1) stack

/-! ## Helper lemmas -/

/-- The dispatch yields no generator exactly for names outside the six
recognized algorithm names. -/
theorem genFor_eq_none_iff (alg : String) (arr : List Int) (target : Int) :
    genFor alg arr target = none ↔
      alg ∉ ["Bubble Sort", "Selection Sort", "Insertion Sort", "Merge Sort",
             "Quick Sort", "Subset Sum"] := by
  unfold genFor
  split_ifs with h1 h2 h3 h4 h5 h6 <;> simp_all

/-! ## C4: concrete bubble-sort trace -/

/-- C4: the bubble-sort generator on input [5,3,1] produces exactly, in
order: Compare(0,1); Swap(0,1) with snapshot [3,5,1]; Compare(1,2);
Swap(1,2) with snapshot [3,1,5]; Compare(0,1); Swap(0,1) with snapshot
[1,3,5]; Done with snapshot [1,3,5]. -/
theorem C4_bubble_trace :
    bubble_sort_generator [5, 3, 1] =
      [Op.compare 0 1, Op.swap 0 1 [3, 5, 1],
       Op.compare 1 2, Op.swap 1 2 [3, 1, 5],
       Op.compare 0 1, Op.swap 0 1 [1, 3, 5],
       Op.done (some [1, 3, 5])] := by decide

/-! ## C3: size clamps of randomize and reset -/

/-- C3 counterexample: with configured size 3, reset() regenerates an array
of length 5, not max(2, min(200, 3)) = 3; reset clamps with
max(5, min(200, size)), unlike randomize(). -/
theorem C3_counterexample :
    (resetArray (fun _ => 0) 3).length = 5 ∧
    (resetArray (fun _ => 0) 3).length ≠ (max 2 (min 200 (3 : Int))).toNat := by
  decide

/-- C3 amended: randomize() clamps the configured size to [2, 200]: the
regenerated length is max(2, min(200, size)); reset() instead clamps to
[5, 200]: its regenerated length is max(5, min(200, size)). -/
theorem C3_clamps (rng : Nat → Int) (size : Int) :
    (randomizeArray rng size).length = (max 2 (min 200 size)).toNat ∧
    (resetArray rng size).length = (max 5 (min 200 size)).toNat := by
  constructor <;> simp [randomizeArray, resetArray]

/-! ## C7: auto-advance delay -/

/-- C7 counterexample: the speed slider holds floats; at speed 3/2 the
scheduled delay is int(max(1, 300 - 3/2)) = 298, which differs from
max(1, 300 - speed) = 298.5, so the claimed equality fails. -/
theorem C7_counterexample :
    ((1 : ℚ) ≤ 3/2 ∧ (3/2 : ℚ) ≤ 200) ∧
    ((runStepDelay (3/2) : ℚ) ≠ max 1 (300 - 3/2)) := by
  have h1 : max (1 : ℚ) (300 - 3/2) = 300 - 3/2 := max_eq_right (by norm_num)
  have h2 : runStepDelay (3/2) = 298 := by
    unfold runStepDelay
    rw [h1, Int.floor_eq_iff]
    constructor <;> norm_num
  refine ⟨⟨by norm_num, by norm_num⟩, ?_⟩
  rw [h2, h1]
  norm_num

/-- C7 amended: the scheduled delay equals int(max(1, 300 - speed)), the
floor of max(1, 300 - speed); for every speed in [1, 200] it lies in
[100, 299]. -/
theorem C7_delay_range (speed : ℚ) (h1 : 1 ≤ speed) (h2 : speed ≤ 200) :
    100 ≤ runStepDelay speed ∧ runStepDelay speed ≤ 299 := by
  unfold runStepDelay
  rw [max_eq_right (by linarith : (1 : ℚ) ≤ 300 - speed)]
  constructor
  · exact Int.le_floor.mpr (by push_cast; linarith)
  · have h3 : (300 : ℚ) - speed ≤ 299 := by linarith
    calc ⌊(300 : ℚ) - speed⌋ ≤ ⌊(299 : ℚ)⌋ := Int.floor_le_floor h3
      _ = 299 := by norm_num

/-- Witness for C7_delay_range at speed 50: the delay is within [100, 299]. -/
theorem C7_delay_range_witness :
    (1 : ℚ) ≤ 50 ∧ (50 : ℚ) ≤ 200 ∧
    (100 ≤ runStepDelay 50 ∧ runStepDelay 50 ≤ 299) :=
  ⟨by norm_num, by norm_num, C7_delay_range 50 (by norm_num) (by norm_num)⟩

/-! ## C8: unrecognized algorithm name -/

/-- C8: with an algorithm name outside the six recognized ones, start()
called while not running, and step() called while not running with no active
generator, show the error box and abort leaving the running flag and the
stored generator exactly as they were. -/
theorem C8_invalid_algorithm (s : CState)
    (halg : s.algo ∉ ["Bubble Sort", "Selection Sort", "Insertion Sort",
                      "Merge Sort", "Quick Sort", "Subset Sum"]) :
    (s.running = false →
      (start s).1.running = s.running ∧ (start s).1.generator = s.generator ∧
      (start s).2 = [Eff.showError ("Unknown algorithm: " ++ s.algo)]) ∧
    (s.running = false → s.generator = none →
      (step s).1.running = s.running ∧ (step s).1.generator = s.generator ∧
      (step s).2 = [Eff.showError ("Unknown algorithm: " ++ s.algo)]) := by
  have hnone : genFor s.algo s.array s.target = none :=
    (genFor_eq_none_iff _ _ _).mpr halg
  constructor
  · intro hrun
    simp [start, hrun, hnone]
  · intro hrun hgen
    simp [step, hrun, hgen, hnone]

/-- Witness for C8_invalid_algorithm at a concrete idle state with the
unrecognized name Foo. -/
theorem C8_invalid_algorithm_witness :
    (start { running := false, generator := none, currentOp := none,
             afterId := false, array := [2, 1], algo := "Foo", target := 10,
             speed := 50, status := "Ready" }).1.running = false ∧
    (step { running := false, generator := none, currentOp := none,
            afterId := false, array := [2, 1], algo := "Foo", target := 10,
            speed := 50, status := "Ready" }).1.generator = none := by
  have h := C8_invalid_algorithm
    { running := false, generator := none, currentOp := none,
      afterId := false, array := [2, 1], algo := "Foo", target := 10,
      speed := 50, status := "Ready" } (by decide)
  exact ⟨(h.1 rfl).1, ((h.2 rfl rfl).2.1).trans rfl⟩

/-! ## C9: no-op start when running, no-op pause when not running -/

/-- C9: start() while already running changes nothing and schedules nothing;
pause() while not running changes nothing; pause() applied after any pause()
is a no-op (idempotence from the paused state). -/
theorem C9_noop_start_pause (s : CState) :
    (s.running = true → start s = (s, [])) ∧
    (s.running = false → pause s = (s, [])) ∧
    pause (pause s).1 = ((pause s).1, []) := by
  refine ⟨?_, ?_, ?_⟩
  · intro h; simp [start, h]
  · intro h; simp [pause, h]
  · by_cases h : s.running = false
    · simp [pause, h]
    · simp only [Bool.not_eq_false] at h
      simp [pause, h]

/-- Witness for C9_noop_start_pause at concrete running and paused states. -/
theorem C9_noop_start_pause_witness :
    start { running := true, generator := some [Op.done (some [1])],
            currentOp := none, afterId := true, array := [1],
            algo := "Bubble Sort", target := 10, speed := 50,
            status := "Running Bubble Sort..." }
      = ({ running := true, generator := some [Op.done (some [1])],
           currentOp := none, afterId := true, array := [1],
           algo := "Bubble Sort", target := 10, speed := 50,
           status := "Running Bubble Sort..." }, []) ∧
    pause { running := false, generator := none, currentOp := none,
            afterId := false, array := [1], algo := "Bubble Sort",
            target := 10, speed := 50, status := "Ready" }
      = ({ running := false, generator := none, currentOp := none,
           afterId := false, array := [1], algo := "Bubble Sort",
           target := 10, speed := 50, status := "Ready" }, []) := by
  constructor
  · exact (C9_noop_start_pause _).1 rfl
  · exact (C9_noop_start_pause _).2.1 rfl

/-! ## C10: Finished collapses to Idle for step() -/

/-- C10: when step() observes generator exhaustion it stores none as the
generator (so a finished run is indistinguishable from the idle state), and
a subsequent step() with no stored generator builds a fresh generator from
the current array and algorithm selection and immediately pulls and applies
its first operation. -/
theorem C10_finished_is_idle (s : CState) :
    (s.running = false → s.generator = some [] →
      step s = ({s with generator := none, status := "Finished"}, [])) ∧
    (∀ op rest, s.running = false → s.generator = none →
      genFor s.algo s.array s.target = some (op :: rest) →
      step s = (applyOperation {s with currentOp := some op,
                                       generator := some rest} op, [])) := by
  constructor
  · intro hrun hgen
    simp [step, hrun, hgen]
  · intro op rest hrun hgen hfor
    simp [step, hrun, hgen, hfor]

/-- Witness for C10_finished_is_idle: a finished step drops the generator,
and the next step on the idle-looking state pulls the first bubble-sort
comparison over the current array. -/
theorem C10_finished_is_idle_witness :
    step { running := false, generator := some [], currentOp := none,
           afterId := false, array := [2, 1], algo := "Bubble Sort",
           target := 10, speed := 50, status := "Running Bubble Sort..." }
      = ({ running := false, generator := none, currentOp := none,
           afterId := false, array := [2, 1], algo := "Bubble Sort",
           target := 10, speed := 50, status := "Finished" }, []) ∧
    step { running := false, generator := none, currentOp := none,
           afterId := false, array := [2, 1], algo := "Bubble Sort",
           target := 10, speed := 50, status := "Finished" }
      = ({ running := false,
           generator := some [Op.swap 0 1 [1, 2], Op.done (some [1, 2])],
           currentOp := some (Op.compare 0 1), afterId := false,
           array := [2, 1], algo := "Bubble Sort", target := 10, speed := 50,
           status := "Comparing indices 0 and 1" }, []) := by
  constructor
  · exact ((C10_finished_is_idle _).1 rfl rfl).trans (by decide)
  · exact ((C10_finished_is_idle _).2 (Op.compare 0 1)
      [Op.swap 0 1 [1, 2], Op.done (some [1, 2])] rfl rfl (by decide)).trans
      (by decide)

/-! ## C2: in-place mutation of the passed array -/

/-- C2 counterexample: consuming the bubble-sort generator constructed over
the caller's list object (heap cell 0) rewrites that very object in place:
the cell changes from [2, 1] to [1, 2]. -/
theorem C2_counterexample :
    consumeOnHeap "Bubble Sort" 0 [[2, 1]] 0 = [[1, 2]] ∧
    ([[2, 1]] : Heap) ≠ [[1, 2]] := by decide

/-- C2 amended: a generator sorts in place the very array object passed to
its constructor; the controller protects its base array by passing a fresh
copy (arr_copy = self.array.copy() in start), so after a full run the
controller's own cell is unchanged while the copy cell holds the final
working array. -/
theorem C2_generators_mutate_their_argument (alg : String) (target : Int)
    (h : Heap) (r : Nat) (hr : r < h.length) :
    (startOnHeap alg target h r).1.getD r [] = h.getD r [] ∧
    (startOnHeap alg target h r).1.getD (startOnHeap alg target h r).2 []
      = finalArrayOf alg (h.getD r []) target := by
  unfold startOnHeap consumeOnHeap
  constructor
  · rw [List.getD_eq_getElem?_getD, List.getElem?_set_ne (by omega : h.length ≠ r),
      List.getElem?_append_left hr, ← List.getD_eq_getElem?_getD]
  · rw [List.getD_eq_getElem?_getD, List.getElem?_set_self (by simp), Option.getD_some]
    congr 1
    rw [List.getD_eq_getElem?_getD, List.getElem?_append_right (le_refl _),
      Nat.sub_self]
    simp

/-- Witness for C2_generators_mutate_their_argument on a two-element heap
cell run through bubble sort. -/
theorem C2_generators_mutate_their_argument_witness :
    (startOnHeap "Bubble Sort" 10 [[2, 1]] 0).1.getD 0 []
      = ([[2, 1]] : Heap).getD 0 [] ∧
    (startOnHeap "Bubble Sort" 10 [[2, 1]] 0).1.getD
        (startOnHeap "Bubble Sort" 10 [[2, 1]] 0).2 []
      = finalArrayOf "Bubble Sort" (([[2, 1]] : Heap).getD 0 []) 10 :=
  C2_generators_mutate_their_argument "Bubble Sort" 10 [[2, 1]] 0 (by decide)

/-! ## C5: subset-sum leaf events -/

/-- Number of leaf events emitted by the backtracking recursion: one per
full assignment of the remaining positions, hence 2 ^ fuel. -/
theorem backtrack_countP_isLeaf :
    ∀ (fuel : Nat) (arr : List Int) (ch : List Bool) (i : Nat) (sum : Int),
      ((backtrack arr ch i sum fuel).2.countP Op.isLeaf) = 2 ^ fuel := by
  intro fuel
  induction fuel with
  | zero => intro arr ch i sum; simp [backtrack, Op.isLeaf]
  | succ f ih =>
    intro arr ch i sum
    simp only [backtrack, List.countP_cons, List.countP_append]
    rw [ih, ih]
    simp [Op.isLeaf, pow_succ]
    ring

/-- The raw backtracking recursion never emits a solution event; those only
appear through reclassification in the generator's outer loop. -/
theorem backtrack_no_solution :
    ∀ (fuel : Nat) (arr : List Int) (ch : List Bool) (i : Nat) (sum : Int)
      (chs : List Bool) (s : Int),
      Op.solution chs s ∉ (backtrack arr ch i sum fuel).2 := by
  intro fuel
  induction fuel with
  | zero => intro arr ch i sum chs s; simp [backtrack]
  | succ f ih =>
    intro arr ch i sum chs s
    simp only [backtrack, List.mem_cons, List.mem_append, not_or]
    exact ⟨by simp, ih _ _ _ _ _ _, by simp, ih _ _ _ _ _ _⟩

/-- Reclassification retags check leaves as solution leaves or keeps events
unchanged, so leafness is preserved. -/
theorem reclassify_isLeaf (t : Int) (e : Op) :
    Op.isLeaf (reclassify t e) = Op.isLeaf e := by
  cases e with
  | check c s0 =>
    simp only [reclassify]
    by_cases hs : s0 = t
    · rw [if_pos hs]; rfl
    · rw [if_neg hs]
  | solution c s0 => rfl
  | compare i j => rfl
  | swap i j a => rfl
  | highlight idxs => rfl
  | shift i j a => rfl
  | insert idx a => rfl
  | mergewrite idx v a => rfl
  | decide idx c cset sm => rfl
  | done a => rfl

/-- An event reclassified into a solution was either a check whose sum is
the target, or already a solution. -/
theorem reclassify_eq_solution {t : Int} {e : Op} {ch : List Bool} {s : Int}
    (h : reclassify t e = Op.solution ch s) : s = t ∨ e = Op.solution ch s := by
  cases e with
  | check c s0 =>
    simp only [reclassify] at h
    by_cases hs : s0 = t
    · rw [if_pos hs] at h
      injection h with h1 h2
      exact Or.inl (h2 ▸ hs)
    · rw [if_neg hs] at h
      exact absurd h (by simp)
  | solution c s0 => exact Or.inr h
  | compare i j => simp [reclassify] at h
  | swap i j a => simp [reclassify] at h
  | highlight idxs => simp [reclassify] at h
  | shift i j a => simp [reclassify] at h
  | insert idx a => simp [reclassify] at h
  | mergewrite idx v a => simp [reclassify] at h
  | decide idx c cset sm => simp [reclassify] at h
  | done a => simp [reclassify] at h

/-- An event that is still a check after reclassification has a sum
differing from the target. -/
theorem reclassify_eq_check {t : Int} {e : Op} {ch : List Bool} {s : Int}
    (h : reclassify t e = Op.check ch s) : s ≠ t := by
  cases e with
  | check c s0 =>
    simp only [reclassify] at h
    by_cases hs : s0 = t
    · rw [if_pos hs] at h
      exact absurd h (by simp)
    · rw [if_neg hs] at h
      injection h with h1 h2
      exact h2 ▸ hs
  | solution c s0 => simp [reclassify] at h
  | compare i j => simp [reclassify] at h
  | swap i j a => simp [reclassify] at h
  | highlight idxs => simp [reclassify] at h
  | shift i j a => simp [reclassify] at h
  | insert idx a => simp [reclassify] at h
  | mergewrite idx v a => simp [reclassify] at h
  | decide idx c cset sm => simp [reclassify] at h
  | done a => simp [reclassify] at h

/-- C5: on an n-element array the subset-sum generator emits exactly 2^n
leaf events (check and solution combined); a leaf is emitted as a solution
exactly when its running sum equals the target, so every solution event
carries the target sum and every remaining check event does not. -/
theorem C5_subset_sum_leaves (arr : List Int) (target : Int) :
    (subset_sum_generator arr target).countP Op.isLeaf = 2 ^ arr.length ∧
    (∀ ch s, Op.solution ch s ∈ subset_sum_generator arr target → s = target) ∧
    (∀ ch s, Op.check ch s ∈ subset_sum_generator arr target → s ≠ target) := by
  refine ⟨?_, ?_, ?_⟩
  · simp only [subset_sum_generator, List.countP_append, List.countP_map]
    have hc : List.countP (Op.isLeaf ∘ reclassify target)
        (backtrack arr (List.replicate arr.length false) 0 0 arr.length).2
        = List.countP Op.isLeaf
            (backtrack arr (List.replicate arr.length false) 0 0 arr.length).2 := by
      apply List.countP_congr
      intro e _
      simp [reclassify_isLeaf]
    rw [hc, backtrack_countP_isLeaf]
    simp [Op.isLeaf]
  · intro ch s hmem
    simp only [subset_sum_generator, List.mem_append, List.mem_map,
      List.mem_singleton] at hmem
    rcases hmem with ⟨e, he, hre⟩ | hdone
    · rcases reclassify_eq_solution hre with h | h
      · exact h
      · exact absurd (h ▸ he) (backtrack_no_solution _ _ _ _ _ _ _)
    · cases hdone
  · intro ch s hmem
    simp only [subset_sum_generator, List.mem_append, List.mem_map,
      List.mem_singleton] at hmem
    rcases hmem with ⟨e, he, hre⟩ | hdone
    · exact reclassify_eq_check hre
    · cases hdone

/-- Witness for C5_subset_sum_leaves on [2, 3] with target 5: four leaves,
and the all-include leaf is reported as a solution carrying the target. -/
theorem C5_subset_sum_leaves_witness :
    (subset_sum_generator [2, 3] 5).countP Op.isLeaf = 2 ^ 2 ∧
    Op.solution [true, true] 5 ∈ subset_sum_generator [2, 3] 5 ∧ (5 : Int) = 5 :=
  ⟨(C5_subset_sum_leaves [2, 3] 5).1, by decide,
   (C5_subset_sum_leaves [2, 3] 5).2.1 [true, true] 5 (by decide)⟩

/-! ## List index helper lemmas -/

/-- Read at the seam of an append. -/
theorem getD_append_length (pre : List Int) (x : Int) (rest : List Int) (d : Int) :
    (pre ++ x :: rest).getD pre.length d = x := by
  rw [List.getD_eq_getElem?_getD, List.getElem?_append_right (le_refl _), Nat.sub_self]
  simp

/-- Write at the seam of an append. -/
theorem set_append_length (pre : List Int) (x v : Int) (rest : List Int) :
    (pre ++ x :: rest).set pre.length v = pre ++ v :: rest := by
  induction pre with
  | nil => rfl
  | cons a as ih => simpa [List.set] using ih

/-- Setting a cell to the value it already holds is the identity. -/
theorem set_getD_self {α : Type} (l : List α) (i : Nat) (d : α)
    (h : i < l.length) : l.set i (l.getD i d) = l := by
  apply List.ext_getElem (by simp)
  intro n h1 h2
  rw [List.getElem_set]
  split
  · next he => subst he; rw [List.getD_eq_getElem l d h2]
  · rfl

/-- A snapshot produced by a write is the previous state updated with the
value read back from the written cell. -/
theorem set_self_getD (l : List Int) (i : Nat) (v : Int) :
    l.set i v = l.set i ((l.set i v).getD i 0) := by
  by_cases h : i < l.length
  · have hv : (l.set i v).getD i 0 = v := by
      rw [List.getD_eq_getElem _ _ (by simpa using h)]
      exact List.getElem_set_self _
    rw [hv]
  · have h' : l.length ≤ i := le_of_not_lt h
    rw [List.set_eq_of_length_le h', List.set_eq_of_length_le h']

/-- Length is preserved by swapList. -/
theorem swapList_length (l : List Int) (i j : Nat) :
    (swapList l i j).length = l.length := by
  simp [swapList]

/-- Reads from a swapped list. -/
theorem getD_swapList (l : List Int) (i j q : Nat)
    (hi : i < l.length) (hj : j < l.length) :
    (swapList l i j).getD q 0 =
      if q = j then l.getD i 0 else if q = i then l.getD j 0 else l.getD q 0 := by
  unfold swapList
  by_cases hqj : q = j
  · subst hqj
    rw [if_pos rfl, List.getD_eq_getElem?_getD, List.getElem?_set_self (by simpa using hj)]
    rfl
  · rw [if_neg hqj, List.getD_eq_getElem?_getD, List.getElem?_set_ne (fun h => hqj h.symm)]
    by_cases hqi : q = i
    · subst hqi
      rw [if_pos rfl, List.getElem?_set_self (by simpa using hi)]
      rfl
    · rw [if_neg hqi, List.getElem?_set_ne (fun h => hqi h.symm),
        ← List.getD_eq_getElem?_getD]

/-- Swapping a cell with the head, list-structurally. -/
theorem getD_cons_set_perm :
    ∀ (t : List Int) (k : Nat) (a : Int), k < t.length →
      (t.getD k 0 :: t.set k a).Perm (a :: t) := by
  intro t
  induction t with
  | nil => intro k a h; simp at h
  | cons b t' ih =>
    intro k a h
    cases k with
    | zero => exact List.Perm.swap a b t'
    | succ k' =>
      have h1 : (t'.getD k' 0 :: t'.set k' a).Perm (a :: t') :=
        ih k' a (by simpa using h)
      exact (List.Perm.swap b (t'.getD k' 0) (t'.set k' a)).trans
        ((h1.cons b).trans (List.Perm.swap a b t'))

/-- An in-range swap permutes the list. -/
theorem swapList_perm :
    ∀ (l : List Int) (i j : Nat), i < l.length → j < l.length →
      (swapList l i j).Perm l := by
  intro l
  induction l with
  | nil => intro i j hi; simp at hi
  | cons a t ih =>
    intro i j hi hj
    cases i with
    | zero =>
      cases j with
      | zero => simp [swapList]
      | succ j' =>
        have hj' : j' < t.length := by simpa using hj
        show ((( a :: t).set 0 (t.getD j' 0)).set (j'+1) a).Perm (a :: t)
        rw [show ((a :: t).set 0 (t.getD j' 0)) = t.getD j' 0 :: t from rfl,
          List.set_cons_succ]
        exact getD_cons_set_perm t j' a hj'
    | succ i' =>
      cases j with
      | zero =>
        have hi' : i' < t.length := by simpa using hi
        show (((a :: t).set (i'+1) a).set 0 (t.getD i' 0)).Perm (a :: t)
        rw [List.set_cons_succ, show ((a :: t.set i' a).set 0 (t.getD i' 0))
          = t.getD i' 0 :: t.set i' a from rfl]
        exact getD_cons_set_perm t i' a hi'
      | succ j' =>
        have : swapList (a :: t) (i'+1) (j'+1) = a :: swapList t i' j' := rfl
        rw [this]
        exact (ih i' j' (by simpa using hi) (by simpa using hj)).cons a

/-- Swapping a cell with itself is the identity. -/
theorem swapList_self (l : List Int) (i : Nat) (h : i < l.length) :
    swapList l i i = l := by
  unfold swapList
  rw [List.set_set, set_getD_self _ _ _ h]

/-- Replaying a concatenation is replaying the parts in sequence. -/
theorem replayFinal_append (cur : List Int) (l1 l2 : List Op) :
    replayFinal cur (l1 ++ l2)
      = (replayFinal cur l1).bind (fun c => replayFinal c l2) := by
  induction l1 generalizing cur with
  | nil => rfl
  | cons e es ih =>
    simp only [List.cons_append, replayFinal]
    cases replayStep cur e with
    | none => rfl
    | some c => exact ih c

/-! ## Bubble sort correctness -/

/-- A bubbling pass permutes the carried element into the list. -/
theorem bubbleCarry_perm : ∀ (l : List Int) (x : Int),
    (bubbleCarry x l).Perm (x :: l) := by
  intro l
  induction l with
  | nil => intro x; exact List.Perm.refl _
  | cons b rest ih =>
    intro x
    by_cases h : x > b
    · simp only [bubbleCarry, if_pos h]
      exact ((ih x).cons b).trans (List.Perm.swap x b rest)
    · simp only [bubbleCarry, if_neg h]
      exact (ih b).cons x

/-- A bubbling pass ends with a maximum of all elements involved. -/
theorem bubbleCarry_max : ∀ (l : List Int) (x : Int),
    ∃ front mx, bubbleCarry x l = front ++ [mx] ∧ ∀ y ∈ x :: l, y ≤ mx := by
  intro l
  induction l with
  | nil =>
    intro x
    exact ⟨[], x, rfl, by intro y hy; simp at hy; omega⟩
  | cons b rest ih =>
    intro x
    by_cases h : x > b
    · obtain ⟨f, m, hEq, hMax⟩ := ih x
      refine ⟨b :: f, m, by simp [bubbleCarry, if_pos h, hEq], ?_⟩
      intro y hy
      rcases List.mem_cons.mp hy with rfl | hy'
      · exact hMax y (List.mem_cons_self _ _)
      · rcases List.mem_cons.mp hy' with rfl | hy''
        · exact le_trans (le_of_lt h) (hMax x (List.mem_cons_self _ _))
        · exact hMax y (List.mem_cons_of_mem _ hy'')
    · obtain ⟨f, m, hEq, hMax⟩ := ih b
      refine ⟨x :: f, m, by simp [bubbleCarry, if_neg h, hEq], ?_⟩
      intro y hy
      rcases List.mem_cons.mp hy with rfl | hy'
      · exact le_trans (not_lt.mp h) (hMax b (List.mem_cons_self _ _))
      · exact hMax y hy'

/-- The inner bubble loop over the region x :: mid is the pure bubbling
pass, and it leaves the prefix and the tail untouched. -/
theorem bubbleInner_fst :
    ∀ (cnt : Nat) (pre : List Int) (x : Int) (mid post : List Int),
      mid.length = cnt →
      (bubbleInner (pre ++ x :: (mid ++ post)) pre.length cnt).1
        = pre ++ (bubbleCarry x mid ++ post) := by
  intro cnt
  induction cnt with
  | zero =>
    intro pre x mid post hlen
    rw [List.length_eq_zero.mp hlen]
    simp [bubbleInner, bubbleCarry]
  | succ c ih =>
    intro pre x mid post hlen
    cases mid with
    | nil => simp at hlen
    | cons b mid' =>
      have hlen' : mid'.length = c := by simpa using hlen
      have harr : pre ++ x :: ((b :: mid') ++ post)
          = pre ++ x :: b :: (mid' ++ post) := by simp
      rw [harr]
      have hgetx : (pre ++ x :: b :: (mid' ++ post)).getD pre.length 0 = x :=
        getD_append_length pre x _ 0
      have hgetb : (pre ++ x :: b :: (mid' ++ post)).getD (pre.length + 1) 0 = b := by
        rw [show pre ++ x :: b :: (mid' ++ post)
            = (pre ++ [x]) ++ b :: (mid' ++ post) by simp,
          show pre.length + 1 = (pre ++ [x]).length by simp]
        exact getD_append_length _ b _ 0
      simp only [bubbleInner, hgetx, hgetb]
      by_cases hgt : x > b
      · rw [if_pos hgt]
        have hswap : swapList (pre ++ x :: b :: (mid' ++ post)) pre.length
            (pre.length + 1) = (pre ++ [b]) ++ x :: (mid' ++ post) := by
          unfold swapList
          rw [hgetx, hgetb, set_append_length pre x b (b :: (mid' ++ post)),
            show pre ++ b :: b :: (mid' ++ post)
              = (pre ++ [b]) ++ b :: (mid' ++ post) by simp,
            show pre.length + 1 = (pre ++ [b]).length by simp,
            set_append_length]
        rw [hswap, show pre.length + 1 = (pre ++ [b]).length by simp,
          ih (pre ++ [b]) x mid' post hlen']
        simp [bubbleCarry, if_pos hgt]
      · rw [if_neg hgt]
        rw [show pre ++ x :: b :: (mid' ++ post)
            = (pre ++ [x]) ++ b :: (mid' ++ post) by simp,
          show pre.length + 1 = (pre ++ [x]).length by simp,
          ih (pre ++ [x]) b mid' post hlen']
        simp [bubbleCarry, if_neg hgt]

/-- Invariant proof of the outer bubble loop: a sorted dominating suffix of
length i grows by one max per pass. -/
theorem bubbleOuter_spec (n : Nat) :
    ∀ (rem : Nat) (arr : List Int) (i : Nat),
      arr.length = n → i + rem = n →
      List.Sorted (· ≤ ·) (arr.drop (n - i)) →
      (∀ x ∈ arr.take (n - i), ∀ y ∈ arr.drop (n - i), x ≤ y) →
      (bubbleOuter n arr i rem).1.Perm arr ∧
      List.Sorted (· ≤ ·) (bubbleOuter n arr i rem).1 := by
  intro rem
  induction rem with
  | zero =>
    intro arr i hlen hi hsort _hdom
    refine ⟨List.Perm.refl _, ?_⟩
    have h0 : n - i = 0 := by omega
    rw [h0, List.drop_zero] at hsort
    exact hsort
  | succ rm ih =>
    intro arr i hlen hi hsort hdom
    have hki : 1 ≤ n - i := by omega
    have hRlen : (arr.take (n - i)).length = n - i := by
      rw [List.length_take]; omega
    have hPlen : (arr.drop (n - i)).length = i := by
      rw [List.length_drop]; omega
    cases hR : arr.take (n - i) with
    | nil => rw [hR] at hRlen; simp at hRlen; omega
    | cons x mid =>
      have hmidlen : mid.length = n - i - 1 := by
        rw [hR] at hRlen; simp at hRlen; omega
      have harr : arr = x :: (mid ++ arr.drop (n - i)) := by
        conv_lhs => rw [← List.take_append_drop (n - i) arr]
        rw [hR]; simp
      have hfst : (bubbleInner arr 0 (n - i - 1)).1
          = bubbleCarry x mid ++ arr.drop (n - i) := by
        have := bubbleInner_fst (n - i - 1) [] x mid (arr.drop (n - i)) hmidlen
        simpa [← harr] using this
      obtain ⟨front, mx, hbc, hmax⟩ := bubbleCarry_max mid x
      have hbclen : (bubbleCarry x mid).length = n - i := by
        rw [(bubbleCarry_perm mid x).length_eq]
        simp [hmidlen]; omega
      have hfrontlen : front.length = n - i - 1 := by
        rw [hbc] at hbclen; simp at hbclen; omega
      have harr2 : (bubbleInner arr 0 (n - i - 1)).1
          = front ++ mx :: arr.drop (n - i) := by
        rw [hfst, hbc]; simp
      have hmem_region : ∀ z ∈ bubbleCarry x mid, z ∈ arr.take (n - i) := by
        intro z hz
        rw [hR]
        exact ((bubbleCarry_perm mid x).mem_iff).mp hz
      have hmx_region : mx ∈ arr.take (n - i) := by
        apply hmem_region
        rw [hbc]
        simp
      -- invariants for the recursive call
      have hlen2 : (front ++ mx :: arr.drop (n - i)).length = n := by
        simp [hfrontlen, hPlen]; omega
      have hdrop2 : (front ++ mx :: arr.drop (n - i)).drop (n - (i+1))
          = mx :: arr.drop (n - i) := by
        rw [show n - (i+1) = front.length by omega]
        exact List.drop_left _ _
      have htake2 : (front ++ mx :: arr.drop (n - i)).take (n - (i+1)) = front := by
        rw [show n - (i+1) = front.length by omega]
        exact List.take_left _ _
      have hsort2 : List.Sorted (· ≤ ·)
          ((front ++ mx :: arr.drop (n - i)).drop (n - (i+1))) := by
        rw [hdrop2, List.sorted_cons]
        exact ⟨fun y hy => hdom mx hmx_region y hy, hsort⟩
      have hdom2 : ∀ z ∈ (front ++ mx :: arr.drop (n - i)).take (n - (i+1)),
          ∀ y ∈ (front ++ mx :: arr.drop (n - i)).drop (n - (i+1)), z ≤ y := by
        rw [htake2, hdrop2]
        intro z hz y hy
        have hzreg : z ∈ arr.take (n - i) := by
          apply hmem_region
          rw [hbc]
          exact List.mem_append_left _ hz
        rcases List.mem_cons.mp hy with rfl | hy'
        · have hzmem : z ∈ x :: mid := by
            rw [← hR]; exact hzreg
          exact hmax z hzmem
        · exact hdom z hzreg y hy'
      have hgoal := ih (front ++ mx :: arr.drop (n - i)) (i+1) hlen2 (by omega)
        hsort2 hdom2
      -- assemble
      have hstep : (bubbleOuter n arr i (rm+1)).1
          = (bubbleOuter n (front ++ mx :: arr.drop (n - i)) (i+1) rm).1 := by
        simp only [bubbleOuter]
        rw [harr2]
      have hperm2 : (front ++ mx :: arr.drop (n - i)).Perm arr := by
        have h1 : (front ++ mx :: arr.drop (n - i))
            = bubbleCarry x mid ++ arr.drop (n - i) := by rw [hbc]; simp
        have h3 : (x :: mid) ++ arr.drop (n - i) = arr := by
          conv_rhs => rw [← List.take_append_drop (n - i) arr]
          rw [hR]
        have h4 : (bubbleCarry x mid ++ arr.drop (n - i)).Perm
            ((x :: mid) ++ arr.drop (n - i)) :=
          (bubbleCarry_perm mid x).append_right _
        rw [h1]
        exact h4.trans (by rw [h3])
      rw [hstep]
      exact ⟨hgoal.1.trans hperm2, hgoal.2⟩

/-- The inner bubble loop never emits a done event. -/
theorem bubbleInner_noDone : ∀ (cnt : Nat) (arr : List Int) (j : Nat),
    ∀ e ∈ (bubbleInner arr j cnt).2, e.isDone = false := by
  intro cnt
  induction cnt with
  | zero => intro arr j e he; simp [bubbleInner] at he
  | succ c ih =>
    intro arr j e he
    by_cases h : arr.getD j 0 > arr.getD (j+1) 0
    · simp only [bubbleInner, if_pos h, List.mem_cons] at he
      rcases he with rfl | rfl | he'
      · rfl
      · rfl
      · exact ih _ _ e he'
    · simp only [bubbleInner, if_neg h, List.mem_cons] at he
      rcases he with rfl | he'
      · rfl
      · exact ih _ _ e he'

/-- The outer bubble loop never emits a done event. -/
theorem bubbleOuter_noDone (n : Nat) : ∀ (rem : Nat) (arr : List Int) (i : Nat),
    ∀ e ∈ (bubbleOuter n arr i rem).2, e.isDone = false := by
  intro rem
  induction rem with
  | zero => intro arr i e he; simp [bubbleOuter] at he
  | succ rm ih =>
    intro arr i e he
    simp only [bubbleOuter, List.mem_append] at he
    rcases he with he' | he'
    · exact bubbleInner_noDone _ _ _ e he'
    · exact ih _ _ e he'

/-- Every snapshot of the inner bubble loop replays from the running state. -/
theorem bubbleInner_replay : ∀ (cnt : Nat) (arr : List Int) (j : Nat),
    replayFinal arr (bubbleInner arr j cnt).2 = some (bubbleInner arr j cnt).1 := by
  intro cnt
  induction cnt with
  | zero => intro arr j; simp [bubbleInner, replayFinal]
  | succ c ih =>
    intro arr j
    by_cases h : arr.getD j 0 > arr.getD (j+1) 0
    · simp only [bubbleInner, if_pos h, replayFinal, replayStep, if_pos rfl]
      exact ih _ _
    · simp only [bubbleInner, if_neg h, replayFinal, replayStep]
      exact ih _ _

/-- Every snapshot of the outer bubble loop replays from the running state. -/
theorem bubbleOuter_replay (n : Nat) : ∀ (rem : Nat) (arr : List Int) (i : Nat),
    replayFinal arr (bubbleOuter n arr i rem).2 = some (bubbleOuter n arr i rem).1 := by
  intro rem
  induction rem with
  | zero => intro arr i; simp [bubbleOuter, replayFinal]
  | succ rm ih =>
    intro arr i
    simp only [bubbleOuter, replayFinal_append, bubbleInner_replay, Option.bind_some]
    exact ih _ _

/-- The bubble-sort generator satisfies the sorting-run contract. -/
theorem bubbleRun_ok (arr : List Int) : SortRunOk bubbleRun arr := by
  have hspec := bubbleOuter_spec arr.length arr.length arr 0 rfl (by omega)
    (by simp [List.drop_length]) (by simp [List.drop_length])
  refine ⟨hspec.1, hspec.2, (bubbleOuter arr.length arr 0 arr.length).2, rfl, ?_⟩
  exact bubbleOuter_noDone arr.length arr.length arr 0

/-- The bubble-sort event snapshots replay exactly to the final array. -/
theorem bubbleRun_replay (arr : List Int) :
    replayFinal arr (bubble_sort_generator arr) = some (bubbleRun arr).1 := by
  show replayFinal arr ((bubbleOuter arr.length arr 0 arr.length).2
    ++ [Op.done (some (bubbleOuter arr.length arr 0 arr.length).1)]) = _
  rw [replayFinal_append, bubbleOuter_replay]
  simp [replayFinal, replayStep, bubbleRun]

/-! ## Selection sort correctness -/

/-- Index-form sortedness implies Sorted. -/
theorem sorted_of_getD (l : List Int)
    (h : ∀ p q, p < q → q < l.length → l.getD p 0 ≤ l.getD q 0) :
    List.Sorted (· ≤ ·) l := by
  apply List.pairwise_iff_getElem.mpr
  intro a b ha hb hab
  have hab' := h a b hab hb
  rwa [List.getD_eq_getElem l 0 ha, List.getD_eq_getElem l 0 hb] at hab'

/-- The selection scan returns an index of a minimum over the scanned range
together with the starting candidate. -/
theorem selInner_spec : ∀ (cnt : Nat) (arr : List Int) (mi j : Nat),
    ((selInner arr mi j cnt).1 = mi ∨
      (j ≤ (selInner arr mi j cnt).1 ∧ (selInner arr mi j cnt).1 < j + cnt)) ∧
    arr.getD (selInner arr mi j cnt).1 0 ≤ arr.getD mi 0 ∧
    (∀ q, j ≤ q → q < j + cnt →
      arr.getD (selInner arr mi j cnt).1 0 ≤ arr.getD q 0) := by
  intro cnt
  induction cnt with
  | zero =>
    intro arr mi j
    refine ⟨Or.inl rfl, le_refl _, ?_⟩
    intro q h1 h2
    omega
  | succ c ih =>
    intro arr mi j
    by_cases h : arr.getD j 0 < arr.getD mi 0
    · simp only [selInner, if_pos h]
      obtain ⟨hpos, hle, hmin⟩ := ih arr j (j+1)
      refine ⟨?_, le_trans hle (le_of_lt h), ?_⟩
      · right; omega
      · intro q h1 h2
        rcases Nat.eq_or_lt_of_le h1 with rfl | h1'
        · exact hle
        · exact hmin q h1' (by omega)
    · simp only [selInner, if_neg h]
      obtain ⟨hpos, hle, hmin⟩ := ih arr mi (j+1)
      refine ⟨?_, hle, ?_⟩
      · omega
      · intro q h1 h2
        rcases Nat.eq_or_lt_of_le h1 with rfl | h1'
        · exact le_trans hle (not_lt.mp h)
        · exact hmin q h1' (by omega)

/-- The selection scan emits only compare and highlight events. -/
theorem selInner_noDone : ∀ (cnt : Nat) (arr : List Int) (mi j : Nat),
    ∀ e ∈ (selInner arr mi j cnt).2, e.isDone = false := by
  intro cnt
  induction cnt with
  | zero => intro arr mi j e he; simp [selInner] at he
  | succ c ih =>
    intro arr mi j e he
    by_cases h : arr.getD j 0 < arr.getD mi 0
    · simp only [selInner, if_pos h, List.mem_cons] at he
      rcases he with rfl | rfl | he'
      · rfl
      · rfl
      · exact ih _ _ _ e he'
    · simp only [selInner, if_neg h, List.mem_cons] at he
      rcases he with rfl | he'
      · rfl
      · exact ih _ _ _ e he'

/-- The selection scan mutates nothing, so it replays as the identity from
any state. -/
theorem selInner_replay : ∀ (cnt : Nat) (arr : List Int) (mi j : Nat)
    (cur : List Int), replayFinal cur (selInner arr mi j cnt).2 = some cur := by
  intro cnt
  induction cnt with
  | zero => intro arr mi j cur; simp [selInner, replayFinal]
  | succ c ih =>
    intro arr mi j cur
    by_cases h : arr.getD j 0 < arr.getD mi 0
    · simp only [selInner, if_pos h, replayFinal, replayStep]
      exact ih _ _ _ _
    · simp only [selInner, if_neg h, replayFinal, replayStep]
      exact ih _ _ _ _

/-- Invariant proof of the outer selection loop: positions below i hold an
ascending run dominated by everything to their right. -/
theorem selOuter_spec (n : Nat) : ∀ (rem : Nat) (arr : List Int) (i : Nat),
    arr.length = n → i + rem = n →
    (∀ p q, p < q → p < i → q < n → arr.getD p 0 ≤ arr.getD q 0) →
    (selOuter n arr i rem).1.Perm arr ∧
    (∀ p q, p < q → q < n →
      (selOuter n arr i rem).1.getD p 0 ≤ (selOuter n arr i rem).1.getD q 0) := by
  intro rem
  induction rem with
  | zero =>
    intro arr i hlen hi hinv
    refine ⟨List.Perm.refl _, ?_⟩
    intro p q hpq hq
    exact hinv p q hpq (by omega) hq
  | succ rm ih =>
    intro arr i hlen hi hinv
    have hin : i < n := by omega
    obtain ⟨hpos, hle, hmin'⟩ := selInner_spec (n - i - 1) arr i (i+1)
    set m := (selInner arr i (i+1) (n - i - 1)).1 with hm
    have hmlt : m < n := by omega
    have hmge : i ≤ m := by omega
    have hmin : ∀ q, i ≤ q → q < n → arr.getD m 0 ≤ arr.getD q 0 := by
      intro q h1 h2
      rcases Nat.eq_or_lt_of_le h1 with rfl | h1'
      · exact hle
      · exact hmin' q h1' (by omega)
    by_cases hne : m ≠ i
    · simp only [selOuter, ← hm, if_pos hne]
      have hget : ∀ q, (swapList arr i m).getD q 0 =
          if q = m then arr.getD i 0 else if q = i then arr.getD m 0
          else arr.getD q 0 := by
        intro q
        exact getD_swapList arr i m q (by omega) (by omega)
      have hinv2 : ∀ p q, p < q → p < i + 1 → q < n →
          (swapList arr i m).getD p 0 ≤ (swapList arr i m).getD q 0 := by
        intro p q hpq hpi hq
        rcases Nat.lt_or_ge p i with hpi' | hpi'
        · have hp : (swapList arr i m).getD p 0 = arr.getD p 0 := by
            rw [hget]
            rw [if_neg (by omega), if_neg (by omega)]
          rw [hp, hget]
          by_cases hqm : q = m
          · rw [if_pos hqm]
            exact hinv p i hpi' hpi' (by omega)
          · rw [if_neg hqm]
            by_cases hqi : q = i
            · rw [if_pos hqi]
              exact hinv p m (by omega) hpi' hmlt
            · rw [if_neg hqi]
              exact hinv p q hpq hpi' hq
        · have hp : p = i := by omega
          rw [hp]
          have hpv : (swapList arr i m).getD i 0 = arr.getD m 0 := by
            rw [hget, if_neg (by omega), if_pos rfl]
          rw [hpv, hget]
          by_cases hqm : q = m
          · rw [if_pos hqm]
            exact hle
          · rw [if_neg hqm, if_neg (by omega)]
            exact hmin q (by omega) hq
      have hlen2 : (swapList arr i m).length = n := by
        rw [swapList_length]; exact hlen
      obtain ⟨hperm, hsorted⟩ := ih (swapList arr i m) (i+1) hlen2 (by omega) hinv2
      exact ⟨hperm.trans (swapList_perm arr i m (by omega) (by omega)), hsorted⟩
    · simp only [selOuter, ← hm, if_neg hne]
      push_neg at hne
      have hinv2 : ∀ p q, p < q → p < i + 1 → q < n →
          arr.getD p 0 ≤ arr.getD q 0 := by
        intro p q hpq hpi hq
        rcases Nat.lt_or_ge p i with hpi' | hpi'
        · exact hinv p q hpq hpi' hq
        · have hp : p = i := by omega
          rw [hp, ← hne]
          exact hmin q (by omega) hq
      exact ih arr (i+1) hlen (by omega) hinv2

/-- The outer selection loop never emits a done event. -/
theorem selOuter_noDone (n : Nat) : ∀ (rem : Nat) (arr : List Int) (i : Nat),
    ∀ e ∈ (selOuter n arr i rem).2, e.isDone = false := by
  intro rem
  induction rem with
  | zero => intro arr i e he; simp [selOuter] at he
  | succ rm ih =>
    intro arr i e he
    by_cases h : (selInner arr i (i+1) (n - i - 1)).1 ≠ i
    · simp only [selOuter, if_pos h, List.mem_append, List.mem_cons] at he
      rcases he with he' | rfl | he'
      · exact selInner_noDone _ _ _ _ e he'
      · rfl
      · exact ih _ _ e he'
    · simp only [selOuter, if_neg h, List.mem_append] at he
      rcases he with he' | he'
      · exact selInner_noDone _ _ _ _ e he'
      · exact ih _ _ e he'

/-- Every snapshot of the outer selection loop replays from the running
state. -/
theorem selOuter_replay (n : Nat) : ∀ (rem : Nat) (arr : List Int) (i : Nat),
    replayFinal arr (selOuter n arr i rem).2 = some (selOuter n arr i rem).1 := by
  intro rem
  induction rem with
  | zero => intro arr i; simp [selOuter, replayFinal]
  | succ rm ih =>
    intro arr i
    by_cases h : (selInner arr i (i+1) (n - i - 1)).1 ≠ i
    · simp only [selOuter, if_pos h, replayFinal_append, selInner_replay,
        Option.some_bind, replayFinal, replayStep, if_pos rfl]
      exact ih _ _
    · simp only [selOuter, if_neg h, replayFinal_append, selInner_replay,
        Option.some_bind]
      exact ih _ _

/-- The selection-sort generator satisfies the sorting-run contract. -/
theorem selectionRun_ok (arr : List Int) : SortRunOk selectionRun arr := by
  obtain ⟨hperm, hsorted⟩ := selOuter_spec arr.length arr.length arr 0 rfl
    (by omega) (by intro p q _ hp; omega)
  refine ⟨hperm, ?_, (selOuter arr.length arr 0 arr.length).2, rfl, ?_⟩
  · apply sorted_of_getD
    intro p q hpq hq
    have hq2 : q < arr.length := by
      rw [show (selectionRun arr).1
          = (selOuter arr.length arr 0 arr.length).1 from rfl] at hq
      rwa [hperm.length_eq] at hq
    exact hsorted p q hpq hq2
  · exact selOuter_noDone arr.length arr.length arr 0

/-- The selection-sort event snapshots replay exactly to the final array. -/
theorem selectionRun_replay (arr : List Int) :
    replayFinal arr (selection_sort_generator arr) = some (selectionRun arr).1 := by
  show replayFinal arr ((selOuter arr.length arr 0 arr.length).2
    ++ [Op.done (some (selOuter arr.length arr 0 arr.length).1)]) = _
  rw [replayFinal_append, selOuter_replay]
  simp [replayFinal, replayStep, selectionRun]

/-! ## Insertion sort correctness -/

/-- Inserting the key from the right permutes it into the list. -/
theorem insAux_perm (key : Int) : ∀ (l : List Int),
    (insAux key l).Perm (key :: l) := by
  intro l
  induction l with
  | nil => exact List.Perm.refl _
  | cons a ra ih =>
    by_cases h : a > key
    · simp only [insAux, if_pos h]
      exact (ih.cons a).trans (List.Perm.swap key a ra)
    · simp only [insAux, if_neg h]
      exact List.Perm.refl _

/-- Inserting the key from the right preserves descending sortedness. -/
theorem insAux_sorted (key : Int) : ∀ (l : List Int),
    List.Sorted (fun a b : Int => b ≤ a) l →
    List.Sorted (fun a b : Int => b ≤ a) (insAux key l) := by
  intro l
  induction l with
  | nil => intro _; simp [insAux]
  | cons a ra ih =>
    intro hs
    rw [List.sorted_cons] at hs
    obtain ⟨ha, hra⟩ := hs
    by_cases h : a > key
    · simp only [insAux, if_pos h]
      rw [List.sorted_cons]
      refine ⟨?_, ih hra⟩
      intro b hb
      have hb2 := ((insAux_perm key ra).mem_iff).mp hb
      rcases List.mem_cons.mp hb2 with rfl | hb'
      · exact le_of_lt h
      · exact ha b hb'
    · simp only [insAux, if_neg h]
      rw [List.sorted_cons]
      refine ⟨?_, by rw [List.sorted_cons]; exact ⟨ha, hra⟩⟩
      intro b hb
      rcases List.mem_cons.mp hb with rfl | hb'
      · exact not_lt.mp h
      · exact le_trans (ha b hb') (not_lt.mp h)

/-- The insertion while loop followed by the key write inserts the key from
the right into the prefix, leaving the tail untouched. -/
theorem insWhile_spec (key : Int) :
    ∀ (pre : List Int) (x : Int) (rest : List Int),
      (insWhileLoop key (pre ++ x :: rest) pre.length).1.set
        (insWhileLoop key (pre ++ x :: rest) pre.length).2.1 key
      = (insAux key pre.reverse).reverse ++ rest := by
  intro pre
  induction pre using List.reverseRecOn with
  | nil => intro x rest; simp [insWhileLoop, insAux]
  | append_singleton init a ih =>
    intro x rest
    have harr : (init ++ [a]) ++ x :: rest = init ++ a :: x :: rest := by simp
    have hlen : (init ++ [a]).length = init.length + 1 := by simp
    rw [harr, hlen]
    have hgeta : (init ++ a :: x :: rest).getD init.length 0 = a :=
      getD_append_length init a _ 0
    by_cases h : a > key
    · simp only [insWhileLoop, hgeta, if_pos h]
      have harr2 : (init ++ a :: x :: rest).set (init.length + 1) a
          = init ++ a :: (a :: rest) := by
        rw [show init ++ a :: x :: rest = (init ++ [a]) ++ x :: rest by simp,
          show init.length + 1 = (init ++ [a]).length by simp, set_append_length]
        simp
      rw [harr2, ih a (a :: rest)]
      simp [insAux, if_pos h]
    · simp only [insWhileLoop, hgeta, if_neg h]
      have hset : (init ++ a :: x :: rest).set (init.length + 1) key
          = init ++ a :: key :: rest := by
        rw [show init ++ a :: x :: rest = (init ++ [a]) ++ x :: rest by simp,
          show init.length + 1 = (init ++ [a]).length by simp, set_append_length]
        simp
      rw [hset]
      simp [insAux, if_neg h]

/-- Invariant proof of the outer insertion loop: the prefix left of i stays
sorted and grows by the inserted key. -/
theorem insOuter_spec : ∀ (rem : Nat) (pre rest : List Int),
    rest.length = rem → List.Sorted (· ≤ ·) pre →
    (insOuter (pre ++ rest) pre.length rem).1.Perm (pre ++ rest) ∧
    List.Sorted (· ≤ ·) (insOuter (pre ++ rest) pre.length rem).1 := by
  intro rem
  induction rem with
  | zero =>
    intro pre rest hlen hsort
    rw [List.length_eq_zero.mp hlen]
    simpa [insOuter] using hsort
  | succ rm ih =>
    intro pre rest hlen hsort
    cases rest with
    | nil => simp at hlen
    | cons x rest' =>
      have hlen' : rest'.length = rm := by simpa using hlen
      have hkey : (pre ++ x :: rest').getD pre.length 0 = x :=
        getD_append_length pre x _ 0
      simp only [insOuter, hkey]
      rw [insWhile_spec x pre x rest']
      have hP2perm : ((insAux x pre.reverse).reverse).Perm (x :: pre) :=
        (List.reverse_perm _).trans
          ((insAux_perm x pre.reverse).trans ((List.reverse_perm pre).cons x))
      have hP2len : ((insAux x pre.reverse).reverse).length = pre.length + 1 := by
        rw [hP2perm.length_eq]; simp
      have hP2sorted : List.Sorted (· ≤ ·) ((insAux x pre.reverse).reverse) := by
        have hdesc : List.Sorted (fun a b : Int => b ≤ a) pre.reverse :=
          List.pairwise_reverse.mpr hsort
        exact List.pairwise_reverse.mpr (insAux_sorted x pre.reverse hdesc)
      rw [show pre.length + 1 = ((insAux x pre.reverse).reverse).length
        from hP2len.symm]
      obtain ⟨hperm, hsorted⟩ := ih ((insAux x pre.reverse).reverse) rest'
        hlen' hP2sorted
      refine ⟨hperm.trans ?_, hsorted⟩
      exact (hP2perm.append_right _).trans List.perm_middle.symm

/-- The insertion while loop never emits a done event. -/
theorem insWhile_noDone (key : Int) : ∀ (J : Nat) (arr : List Int),
    ∀ e ∈ (insWhileLoop key arr J).2.2, e.isDone = false := by
  intro J
  induction J with
  | zero => intro arr e he; simp [insWhileLoop] at he
  | succ j ih =>
    intro arr e he
    by_cases h : arr.getD j 0 > key
    · simp only [insWhileLoop, if_pos h, List.mem_cons] at he
      rcases he with rfl | rfl | he'
      · rfl
      · rfl
      · exact ih _ e he'
    · simp only [insWhileLoop, if_neg h] at he
      simp at he

/-- Every snapshot of the insertion while loop replays from the running
state. -/
theorem insWhile_replay (key : Int) : ∀ (J : Nat) (arr : List Int),
    replayFinal arr (insWhileLoop key arr J).2.2
      = some (insWhileLoop key arr J).1 := by
  intro J
  induction J with
  | zero => intro arr; simp [insWhileLoop, replayFinal]
  | succ j ih =>
    intro arr
    by_cases h : arr.getD j 0 > key
    · simp only [insWhileLoop, if_pos h, replayFinal, replayStep, if_pos
        (⟨rfl, rfl⟩ : j + 1 = j + 1 ∧ arr.set (j+1) (arr.getD j 0)
          = arr.set (j+1) (arr.getD j 0))]
      exact ih _
    · simp only [insWhileLoop, if_neg h]
      simp [replayFinal]

/-- The outer insertion loop never emits a done event. -/
theorem insOuter_noDone : ∀ (rem : Nat) (arr : List Int) (i : Nat),
    ∀ e ∈ (insOuter arr i rem).2, e.isDone = false := by
  intro rem
  induction rem with
  | zero => intro arr i e he; simp [insOuter] at he
  | succ rm ih =>
    intro arr i e he
    simp only [insOuter, List.mem_cons, List.mem_append] at he
    rcases he with rfl | he' | rfl | he'
    · rfl
    · exact insWhile_noDone _ _ _ e he'
    · rfl
    · exact ih _ _ e he'

/-- Every snapshot of the outer insertion loop replays from the running
state. -/
theorem insOuter_replay : ∀ (rem : Nat) (arr : List Int) (i : Nat),
    replayFinal arr (insOuter arr i rem).2 = some (insOuter arr i rem).1 := by
  intro rem
  induction rem with
  | zero => intro arr i; simp [insOuter, replayFinal]
  | succ rm ih =>
    intro arr i
    simp only [insOuter, replayFinal, replayStep, replayFinal_append,
      insWhile_replay, Option.some_bind]
    rw [if_pos (set_self_getD _ _ _)]
    exact ih _ _

/-- The insertion-sort generator satisfies the sorting-run contract. -/
theorem insertionRun_ok (arr : List Int) : SortRunOk insertionRun arr := by
  cases arr with
  | nil =>
    refine ⟨List.Perm.refl _, List.sorted_nil, [], rfl, ?_⟩
    intro e he
    simp at he
  | cons x rest0 =>
    have hspec := insOuter_spec rest0.length [x] rest0 rfl
      (List.sorted_singleton x)
    exact ⟨hspec.1, hspec.2, (insOuter (x :: rest0) 1 rest0.length).2, rfl,
      insOuter_noDone rest0.length (x :: rest0) 1⟩

/-- The insertion-sort event snapshots replay exactly to the final array. -/
theorem insertionRun_replay (arr : List Int) :
    replayFinal arr (insertion_sort_generator arr) = some (insertionRun arr).1 := by
  show replayFinal arr ((insOuter arr 1 (arr.length - 1)).2
    ++ [Op.done (some (insOuter arr 1 (arr.length - 1)).1)]) = _
  rw [replayFinal_append, insOuter_replay]
  simp [replayFinal, replayStep, insertionRun]

/-! ## Slice and overwrite lemmas -/

/-- An empty slice. -/
theorem sliceList_nil (l : List Int) (a b : Nat) (h : b ≤ a) :
    sliceList l a b = [] := by
  unfold sliceList
  rw [Nat.sub_eq_zero_of_le h, List.take_zero]

/-- Peeling the head off a slice. -/
theorem sliceList_cons (l : List Int) (a b : Nat) (hab : a < b)
    (hal : a < l.length) : sliceList l a b = l.getD a 0 :: sliceList l (a+1) b := by
  unfold sliceList
  rw [List.drop_eq_getElem_cons hal, show b - a = (b - (a+1)) + 1 by omega,
    List.take_succ_cons, List.getD_eq_getElem l 0 hal]

/-- Length of a slice. -/
theorem sliceList_length (l : List Int) (a b : Nat) (hab : a ≤ b)
    (hbl : b ≤ l.length) : (sliceList l a b).length = b - a := by
  unfold sliceList
  rw [List.length_take, List.length_drop]
  omega

/-- The slice of the middle of a three-part append. -/
theorem sliceList_middle (pre mid post : List Int) :
    sliceList (pre ++ mid ++ post) pre.length (pre.length + mid.length) = mid := by
  unfold sliceList
  rw [List.append_assoc, List.drop_left, Nat.add_sub_cancel_left,
    List.take_append_of_le_length (le_refl _), List.take_length]

/-- Taking a prefix of a slice shrinks its right end. -/
theorem sliceList_take (l : List Int) (a b c : Nat) (hab : a ≤ b) (hbc : b ≤ c) :
    (sliceList l a c).take (b - a) = sliceList l a b := by
  unfold sliceList
  rw [List.take_take, Nat.min_def, if_pos (by omega)]

/-- Dropping a prefix of a slice moves its left end. -/
theorem sliceList_drop (l : List Int) (a b c : Nat) (hab : a ≤ b) :
    (sliceList l a c).drop (b - a) = sliceList l b c := by
  unfold sliceList
  rw [List.drop_take, List.drop_drop, show a + (b - a) = b by omega,
    show c - a - (b - a) = c - b by omega]

/-- The full slice is the list itself. -/
theorem sliceList_full (l : List Int) : sliceList l 0 l.length = l := by
  unfold sliceList
  rw [List.drop_zero, Nat.sub_zero, List.take_length]

/-- Indexing into a slice. -/
theorem getElem_sliceList (l : List Int) (a b t : Nat)
    (h : t < (sliceList l a b).length) (hl : a + t < l.length) :
    (sliceList l a b)[t] = l.getD (a + t) 0 := by
  unfold sliceList at *
  rw [List.getElem_take, List.getElem_drop, List.getD_eq_getElem l 0 hl]

/-- A member of the list at a position inside [a, b) is a member of the
slice. -/
theorem getD_mem_sliceList (l : List Int) (a b q : Nat) (haq : a ≤ q)
    (hqb : q < b) (hbl : b ≤ l.length) : l.getD q 0 ∈ sliceList l a b := by
  have hlen : (sliceList l a b).length = b - a := sliceList_length l a b (by omega) hbl
  have ht : q - a < (sliceList l a b).length := by omega
  have hg := getElem_sliceList l a b (q - a) ht (by omega)
  rw [show a + (q - a) = q by omega] at hg
  rw [← hg]
  exact List.getElem_mem ht

/-- Slices agree whenever lengths agree and the values on the window
agree. -/
theorem sliceList_ext (l1 l2 : List Int) (a b : Nat)
    (hlen : l1.length = l2.length)
    (hval : ∀ q, a ≤ q → q < b → l1.getD q 0 = l2.getD q 0) :
    sliceList l1 a b = sliceList l2 a b := by
  apply List.ext_getElem
  · unfold sliceList
    simp [hlen]
  · intro t h1 h2
    have hb1 : t < b - a := by
      unfold sliceList at h1
      rw [List.length_take, List.length_drop] at h1
      omega
    have hb2 : t < l1.length - a := by
      unfold sliceList at h1
      rw [List.length_take, List.length_drop] at h1
      omega
    have hq : a + t < l1.length := by omega
    rw [getElem_sliceList l1 a b t h1 hq,
      getElem_sliceList l2 a b t h2 (by omega),
      hval (a + t) (by omega) (by omega)]

/-- Overwriting the middle of a three-part append. -/
theorem overwrite_append : ∀ (vs : List Int) (pre mid post : List Int),
    mid.length = vs.length →
    overwrite (pre ++ mid ++ post) pre.length vs = pre ++ vs ++ post := by
  intro vs
  induction vs with
  | nil =>
    intro pre mid post hlen
    have hmid : mid = [] := List.length_eq_zero.mp (by simpa using hlen)
    subst hmid
    rfl
  | cons v vs' ih =>
    intro pre mid post hlen
    cases mid with
    | nil => simp at hlen
    | cons m0 mid' =>
      have hlen' : mid'.length = vs'.length := by simpa using hlen
      show overwrite (((pre ++ m0 :: mid' ++ post).set pre.length v)) (pre.length + 1) vs'
        = pre ++ v :: vs' ++ post
      rw [show pre ++ m0 :: mid' ++ post = pre ++ m0 :: (mid' ++ post) by simp,
        set_append_length pre m0 v (mid' ++ post),
        show pre ++ v :: (mid' ++ post) = (pre ++ [v]) ++ mid' ++ post by simp,
        show pre.length + 1 = (pre ++ [v]).length by simp,
        ih (pre ++ [v]) mid' post hlen']
      simp

/-- Overwriting preserves length. -/
theorem overwrite_length : ∀ (vs : List Int) (arr : List Int) (k : Nat),
    (overwrite arr k vs).length = arr.length := by
  intro vs
  induction vs with
  | nil => intro arr k; rfl
  | cons v vs' ih =>
    intro arr k
    show (overwrite (arr.set k v) (k+1) vs').length = arr.length
    rw [ih, List.length_set]

/-- Overwriting leaves positions outside the written window unchanged. -/
theorem overwrite_getD_outside : ∀ (vs : List Int) (arr : List Int) (k q : Nat),
    (q < k ∨ k + vs.length ≤ q) →
    (overwrite arr k vs).getD q 0 = arr.getD q 0 := by
  intro vs
  induction vs with
  | nil => intro arr k q _; rfl
  | cons v vs' ih =>
    intro arr k q hq
    simp only [List.length_cons] at hq
    show (overwrite (arr.set k v) (k+1) vs').getD q 0 = arr.getD q 0
    rw [ih _ _ _ (by omega), List.getD_eq_getElem?_getD,
      List.getElem?_set_ne (by omega), ← List.getD_eq_getElem?_getD]

/-- Reading back an overwritten window. -/
theorem overwrite_sliceList (vs aux : List Int) (k : Nat)
    (h : k + vs.length ≤ aux.length) :
    sliceList (overwrite aux k vs) k (k + vs.length) = vs := by
  obtain ⟨A, B, C, hA, hB, hdecomp⟩ : ∃ A B C, A.length = k
      ∧ B.length = vs.length ∧ aux = A ++ B ++ C :=
    ⟨aux.take k, (aux.drop k).take vs.length, aux.drop (k + vs.length),
     by rw [List.length_take]; omega,
     by rw [List.length_take, List.length_drop]; omega,
     by
       rw [List.append_assoc, show aux.drop (k + vs.length)
           = (aux.drop k).drop vs.length by rw [List.drop_drop],
         List.take_append_drop, List.take_append_drop]⟩
  subst hdecomp
  rw [← hA, overwrite_append vs A B C hB]
  exact sliceList_middle A vs C

/-! ## Merge sort correctness -/

/-- The pure merge permutes the concatenation of its runs. -/
theorem mergeLists_perm : ∀ (xs ys : List Int),
    (mergeLists xs ys).Perm (xs ++ ys) := by
  intro xs
  induction xs with
  | nil => intro ys; simp [mergeLists]
  | cons x xs' ih =>
    intro ys
    induction ys with
    | nil => simp [mergeLists]
    | cons y ys' ihy =>
      by_cases h : x ≤ y
      · simp only [mergeLists, if_pos h]
        exact (ih (y :: ys')).cons x
      · simp only [mergeLists, if_neg h]
        refine (ihy.cons y).trans ?_
        exact List.perm_middle.symm

/-- The pure merge of two sorted runs is sorted. -/
theorem mergeLists_sorted : ∀ (xs ys : List Int),
    List.Sorted (· ≤ ·) xs → List.Sorted (· ≤ ·) ys →
    List.Sorted (· ≤ ·) (mergeLists xs ys) := by
  intro xs
  induction xs with
  | nil => intro ys _ hy; simpa [mergeLists] using hy
  | cons x xs' ih =>
    intro ys hx hy
    induction ys with
    | nil => simpa [mergeLists] using hx
    | cons y ys' ihy =>
      rw [List.sorted_cons] at hx hy
      by_cases h : x ≤ y
      · simp only [mergeLists, if_pos h]
        rw [List.sorted_cons]
        constructor
        · intro b hb
          have hb2 := ((mergeLists_perm xs' (y :: ys')).mem_iff).mp hb
          rcases List.mem_append.mp hb2 with hb3 | hb3
          · exact hx.1 b hb3
          · rcases List.mem_cons.mp hb3 with rfl | hb4
            · exact h
            · exact le_trans h (hy.1 b hb4)
        · exact ih (y :: ys') hx.2 (List.sorted_cons.mpr hy)
      · simp only [mergeLists, if_neg h]
        rw [List.sorted_cons]
        constructor
        · intro b hb
          have hb2 := ((mergeLists_perm (x :: xs') ys').mem_iff).mp hb
          rcases List.mem_append.mp hb2 with hb3 | hb3
          · rcases List.mem_cons.mp hb3 with rfl | hb4
            · exact le_of_lt (not_le.mp h)
            · exact le_trans (le_of_lt (not_le.mp h)) (hx.1 b hb4)
          · exact hy.1 b hb3
        · exact ihy hy.2

/-- Merging from an empty left run. -/
theorem mergeLists_nil_left (ys : List Int) : mergeLists [] ys = ys := by
  simp [mergeLists]

/-- Merging against an empty right run. -/
theorem mergeLists_nil_right (xs : List Int) : mergeLists xs [] = xs := by
  cases xs with
  | nil => simp [mergeLists]
  | cons x xs => simp [mergeLists]

/-- Unfolding equation of the pure merge on two nonempty runs. -/
theorem mergeLists_cons_cons (x y : Int) (xs ys : List Int) :
    mergeLists (x :: xs) (y :: ys)
      = if x ≤ y then x :: mergeLists xs (y :: ys)
        else y :: mergeLists (x :: xs) ys := by
  simp only [mergeLists]

/-- The block copy writes the matching slice of arr over aux. -/
theorem copyRange_eq : ∀ (cnt : Nat) (arr aux : List Int) (k : Nat),
    k + cnt ≤ arr.length →
    copyRange arr aux k cnt = overwrite aux k (sliceList arr k (k + cnt)) := by
  intro cnt
  induction cnt with
  | zero =>
    intro arr aux k _
    rw [Nat.add_zero, sliceList_nil arr k k (le_refl _)]
    rfl
  | succ c ih =>
    intro arr aux k hk
    show copyRange arr (aux.set k (arr.getD k 0)) (k+1) c = _
    rw [sliceList_cons arr k (k + (c+1)) (by omega) (by omega)]
    show _ = overwrite (aux.set k (arr.getD k 0)) (k+1) (sliceList arr (k+1) (k + (c+1)))
    rw [show k + (c+1) = (k+1) + c by omega]
    exact ih arr _ (k+1) (by omega)

/-- The block copy preserves the length of aux. -/
theorem copyRange_length : ∀ (cnt : Nat) (arr aux : List Int) (k : Nat),
    (copyRange arr aux k cnt).length = aux.length := by
  intro cnt
  induction cnt with
  | zero => intro arr aux k; rfl
  | succ c ih =>
    intro arr aux k
    show (copyRange arr (aux.set k (arr.getD k 0)) (k+1) c).length = aux.length
    rw [ih, List.length_set]

/-- The imperative two-pointer merge writes exactly the pure merge of the two
aux slices at consecutive positions from k. -/
theorem mergeRange_fst (aux : List Int) (m r : Nat) :
    ∀ (fuel : Nat) (arr : List Int) (i j k : Nat),
      (m - i) + (r - j) ≤ fuel →
      m ≤ aux.length → r ≤ aux.length →
      (mergeRange aux m r arr i j k).1
        = overwrite arr k (mergeLists (sliceList aux i m) (sliceList aux j r)) := by
  intro fuel
  induction fuel with
  | zero =>
    intro arr i j k hfuel hm hr
    unfold mergeRange
    rw [dif_neg (by omega), dif_neg (by omega), dif_neg (by omega),
      sliceList_nil aux i m (by omega), sliceList_nil aux j r (by omega),
      mergeLists_nil_left]
    rfl
  | succ f ih =>
    intro arr i j k hfuel hm hr
    by_cases h1 : i < m ∧ j < r
    · unfold mergeRange
      rw [dif_pos h1]
      rw [sliceList_cons aux i m h1.1 (by omega),
        sliceList_cons aux j r h1.2 (by omega), mergeLists_cons_cons]
      by_cases h2 : aux.getD i 0 ≤ aux.getD j 0
      · rw [if_pos h2, if_pos h2]
        show (mergeRange aux m r (arr.set k (aux.getD i 0)) (i+1) j (k+1)).1 = _
        rw [ih (arr.set k (aux.getD i 0)) (i+1) j (k+1) (by omega) hm hr,
          ← sliceList_cons aux j r h1.2 (by omega)]
        rfl
      · rw [if_neg h2, if_neg h2]
        show (mergeRange aux m r (arr.set k (aux.getD j 0)) i (j+1) (k+1)).1 = _
        rw [ih (arr.set k (aux.getD j 0)) i (j+1) (k+1) (by omega) hm hr,
          ← sliceList_cons aux i m h1.1 (by omega)]
        rfl
    · by_cases h2 : i < m
      · unfold mergeRange
        rw [dif_neg h1, dif_pos h2]
        show (mergeRange aux m r (arr.set k (aux.getD i 0)) (i+1) j (k+1)).1 = _
        rw [ih (arr.set k (aux.getD i 0)) (i+1) j (k+1) (by omega) hm hr,
          sliceList_nil aux j r (by omega), mergeLists_nil_right,
          mergeLists_nil_right, sliceList_cons aux i m h2 (by omega)]
        rfl
      · by_cases h3 : j < r
        · unfold mergeRange
          rw [dif_neg h1, dif_neg h2, dif_pos h3]
          show (mergeRange aux m r (arr.set k (aux.getD j 0)) i (j+1) (k+1)).1 = _
          rw [ih (arr.set k (aux.getD j 0)) i (j+1) (k+1) (by omega) hm hr,
            sliceList_nil aux i m (by omega), mergeLists_nil_left,
            mergeLists_nil_left, sliceList_cons aux j r h3 (by omega)]
          rfl
        · unfold mergeRange
          rw [dif_neg h1, dif_neg h2, dif_neg h3,
            sliceList_nil aux i m (by omega), sliceList_nil aux j r (by omega),
            mergeLists_nil_left]
          rfl

/-- The imperative merge never emits a done event. -/
theorem mergeRange_noDone (aux : List Int) (m r : Nat) :
    ∀ (fuel : Nat) (arr : List Int) (i j k : Nat),
      (m - i) + (r - j) ≤ fuel →
      ∀ e ∈ (mergeRange aux m r arr i j k).2, e.isDone = false := by
  intro fuel
  induction fuel with
  | zero =>
    intro arr i j k hfuel e he
    unfold mergeRange at he
    rw [dif_neg (by omega), dif_neg (by omega), dif_neg (by omega)] at he
    simp at he
  | succ f ih =>
    intro arr i j k hfuel e he
    by_cases h1 : i < m ∧ j < r
    · unfold mergeRange at he
      rw [dif_pos h1] at he
      by_cases h2 : aux.getD i 0 ≤ aux.getD j 0
      · rw [if_pos h2] at he
        simp only [List.mem_cons] at he
        rcases he with rfl | rfl | he'
        · rfl
        · rfl
        · exact ih _ _ _ _ (by omega) e he'
      · rw [if_neg h2] at he
        simp only [List.mem_cons] at he
        rcases he with rfl | rfl | he'
        · rfl
        · rfl
        · exact ih _ _ _ _ (by omega) e he'
    · by_cases h2 : i < m
      · unfold mergeRange at he
        rw [dif_neg h1, dif_pos h2] at he
        simp only [List.mem_cons] at he
        rcases he with rfl | he'
        · rfl
        · exact ih _ _ _ _ (by omega) e he'
      · by_cases h3 : j < r
        · unfold mergeRange at he
          rw [dif_neg h1, dif_neg h2, dif_pos h3] at he
          simp only [List.mem_cons] at he
          rcases he with rfl | he'
          · rfl
          · exact ih _ _ _ _ (by omega) e he'
        · unfold mergeRange at he
          rw [dif_neg h1, dif_neg h2, dif_neg h3] at he
          simp at he

/-- Every snapshot of the imperative merge replays from the running state. -/
theorem mergeRange_replay (aux : List Int) (m r : Nat) :
    ∀ (fuel : Nat) (arr : List Int) (i j k : Nat),
      (m - i) + (r - j) ≤ fuel →
      replayFinal arr (mergeRange aux m r arr i j k).2
        = some (mergeRange aux m r arr i j k).1 := by
  intro fuel
  induction fuel with
  | zero =>
    intro arr i j k hfuel
    unfold mergeRange
    rw [dif_neg (by omega), dif_neg (by omega), dif_neg (by omega)]
    rfl
  | succ f ih =>
    intro arr i j k hfuel
    by_cases h1 : i < m ∧ j < r
    · unfold mergeRange
      rw [dif_pos h1]
      by_cases h2 : aux.getD i 0 ≤ aux.getD j 0
      · rw [if_pos h2]
        simp only [replayFinal, replayStep, if_pos (set_self_getD arr k _)]
        exact ih _ _ _ _ (by omega)
      · rw [if_neg h2]
        simp only [replayFinal, replayStep, if_pos (set_self_getD arr k _)]
        exact ih _ _ _ _ (by omega)
    · by_cases h2 : i < m
      · unfold mergeRange
        rw [dif_neg h1, dif_pos h2]
        simp only [replayFinal, replayStep, if_pos (set_self_getD arr k _)]
        exact ih _ _ _ _ (by omega)
      · by_cases h3 : j < r
        · unfold mergeRange
          rw [dif_neg h1, dif_neg h2, dif_pos h3]
          simp only [replayFinal, replayStep, if_pos (set_self_getD arr k _)]
          exact ih _ _ _ _ (by omega)
        · unfold mergeRange
          rw [dif_neg h1, dif_neg h2, dif_neg h3]
          rfl

/-- Adjacent slices concatenate. -/
theorem sliceList_append_parts (l : List Int) (a b c : Nat) (hab : a ≤ b)
    (hbc : b ≤ c) : sliceList l a b ++ sliceList l b c = sliceList l a c := by
  unfold sliceList
  rw [show l.drop b = (l.drop a).drop (b - a) by
      rw [List.drop_drop, show a + (b - a) = b by omega],
    ← List.take_add, show b - a + (c - b) = c - a by omega]

/-- Decomposing a list around a slice window. -/
theorem take_slice_drop (l : List Int) (a b : Nat) (hab : a ≤ b)
    (hbl : b ≤ l.length) : l = l.take a ++ sliceList l a b ++ l.drop b := by
  unfold sliceList
  rw [List.append_assoc, show l.drop b = (l.drop a).drop (b - a) by
      rw [List.drop_drop, show a + (b - a) = b by omega],
    List.take_append_drop, List.take_append_drop]

/-- Overwriting a window with a permutation of its former contents permutes
the whole list. -/
theorem overwrite_perm (arr : List Int) (k : Nat) (vs : List Int)
    (h : k + vs.length ≤ arr.length)
    (hperm : vs.Perm (sliceList arr k (k + vs.length))) :
    (overwrite arr k vs).Perm arr := by
  have hd : arr = arr.take k ++ sliceList arr k (k + vs.length)
      ++ arr.drop (k + vs.length) := take_slice_drop arr k _ (by omega) (by omega)
  have htl : (arr.take k).length = k := by rw [List.length_take]; omega
  have hBlen : (sliceList arr k (k + vs.length)).length = vs.length := by
    rw [sliceList_length arr _ _ (by omega) (by omega)]; omega
  have happ := overwrite_append vs (arr.take k)
    (sliceList arr k (k + vs.length)) (arr.drop (k + vs.length)) hBlen
  rw [htl] at happ
  have e1 : overwrite arr k vs = arr.take k ++ vs ++ arr.drop (k + vs.length) := by
    conv_lhs => rw [hd]
    exact happ
  rw [e1]
  conv_rhs => rw [hd]
  exact (hperm.append_left _).append_right _

/-- Invariant proof of one merging pass: blocks of width w from position i,
sorted individually, become sorted blocks of width 2w; everything left of i
is untouched. -/
theorem mergePass_spec (n w : Nat) (hw : 0 < w) :
    ∀ (fuel : Nat) (arr aux : List Int) (i : Nat), n - i ≤ fuel →
      arr.length = n → aux.length = n →
      (∀ b : Nat, List.Sorted (· ≤ ·)
        (sliceList arr (i + b*w) (min (i + b*w + w) n))) →
      (mergePass n w hw arr aux i).1.Perm arr ∧
      (mergePass n w hw arr aux i).1.length = n ∧
      (∀ q, q < i → (mergePass n w hw arr aux i).1.getD q 0 = arr.getD q 0) ∧
      (∀ b : Nat, List.Sorted (· ≤ ·)
        (sliceList (mergePass n w hw arr aux i).1
          (i + b*(2*w)) (min (i + b*(2*w) + 2*w) n))) := by
  intro fuel
  induction fuel with
  | zero =>
    intro arr aux i hfuel hlen hauxlen hblocks
    have hin : ¬ i < n := by omega
    unfold mergePass
    rw [dif_neg hin]
    refine ⟨List.Perm.refl _, hlen, fun q _ => rfl, ?_⟩
    intro b
    rw [sliceList_nil arr _ _ (by omega)]
    exact List.sorted_nil
  | succ f ih =>
    intro arr aux i hfuel hlen hauxlen hblocks
    by_cases hin : i < n
    case neg =>
      unfold mergePass
      rw [dif_neg hin]
      refine ⟨List.Perm.refl _, hlen, fun q _ => rfl, ?_⟩
      intro b
      rw [sliceList_nil arr _ _ (by omega)]
      exact List.sorted_nil
    case pos =>
    have him : i ≤ min (i + w) n := by omega
    have hmr : min (i + w) n ≤ min (i + 2*w) n := by omega
    have hrn : min (i + 2*w) n ≤ n := by omega
    have hri : min (i + 2*w) n ≤ i + 2*w := by omega
    have haux2 : copyRange arr aux i (min (i + 2*w) n - i)
        = overwrite aux i (sliceList arr i (min (i + 2*w) n)) := by
      rw [copyRange_eq _ arr aux i (by omega),
        show i + (min (i + 2*w) n - i) = min (i + 2*w) n by omega]
    have haux2len : (copyRange arr aux i (min (i + 2*w) n - i)).length = n := by
      rw [copyRange_length, hauxlen]
    have hslen : (sliceList arr i (min (i + 2*w) n)).length
        = min (i + 2*w) n - i := sliceList_length arr _ _ (by omega) (by omega)
    have hsl : sliceList (copyRange arr aux i (min (i + 2*w) n - i))
        i (min (i + 2*w) n) = sliceList arr i (min (i + 2*w) n) := by
      rw [haux2]
      have := overwrite_sliceList (sliceList arr i (min (i + 2*w) n)) aux i
        (by rw [hslen]; omega)
      rwa [hslen, show i + (min (i + 2*w) n - i) = min (i + 2*w) n by omega]
        at this
    have hsl1 : sliceList (copyRange arr aux i (min (i + 2*w) n - i))
        i (min (i + w) n) = sliceList arr i (min (i + w) n) := by
      rw [← sliceList_take _ i (min (i + w) n) (min (i + 2*w) n) him hmr,
        ← sliceList_take arr i (min (i + w) n) (min (i + 2*w) n) him hmr, hsl]
    have hsl2 : sliceList (copyRange arr aux i (min (i + 2*w) n - i))
        (min (i + w) n) (min (i + 2*w) n)
        = sliceList arr (min (i + w) n) (min (i + 2*w) n) := by
      rw [← sliceList_drop _ i (min (i + w) n) (min (i + 2*w) n) him,
        ← sliceList_drop arr i (min (i + w) n) (min (i + 2*w) n) him, hsl]
    have harr2 : (mergeRange (copyRange arr aux i (min (i + 2*w) n - i))
        (min (i + w) n) (min (i + 2*w) n) arr i (min (i + w) n) i).1
        = overwrite arr i (mergeLists (sliceList arr i (min (i + w) n))
            (sliceList arr (min (i + w) n) (min (i + 2*w) n))) := by
      rw [mergeRange_fst _ _ _ (min (i + w) n - i + (min (i + 2*w) n - min (i + w) n))
        arr i (min (i + w) n) i (le_refl _) (by omega) (by omega), hsl1, hsl2]
    have hs1sorted : List.Sorted (· ≤ ·) (sliceList arr i (min (i + w) n)) := by
      have := hblocks 0
      simpa using this
    have hs2sorted : List.Sorted (· ≤ ·)
        (sliceList arr (min (i + w) n) (min (i + 2*w) n)) := by
      by_cases hc : i + w ≤ n
      · have := hblocks 1
        rw [show i + 1*w = i + w by ring_nf] at this
        rw [show min (i + w) n = i + w by omega]
        rwa [show min (i + w + w) n = min (i + 2*w) n by omega] at this
      · rw [sliceList_nil arr _ _ (by omega)]
        exact List.sorted_nil
    have hMsorted : List.Sorted (· ≤ ·)
        (mergeLists (sliceList arr i (min (i + w) n))
          (sliceList arr (min (i + w) n) (min (i + 2*w) n))) :=
      mergeLists_sorted _ _ hs1sorted hs2sorted
    have hMlen : (mergeLists (sliceList arr i (min (i + w) n))
        (sliceList arr (min (i + w) n) (min (i + 2*w) n))).length
        = min (i + 2*w) n - i := by
      rw [(mergeLists_perm _ _).length_eq, List.length_append,
        sliceList_length arr _ _ him (by omega),
        sliceList_length arr _ _ hmr (by omega)]
      omega
    have hMperm : (mergeLists (sliceList arr i (min (i + w) n))
        (sliceList arr (min (i + w) n) (min (i + 2*w) n))).Perm
        (sliceList arr i (min (i + 2*w) n)) := by
      refine (mergeLists_perm _ _).trans ?_
      rw [sliceList_append_parts arr i (min (i + w) n) (min (i + 2*w) n) him hmr]
    have harr2perm : (overwrite arr i (mergeLists (sliceList arr i (min (i + w) n))
        (sliceList arr (min (i + w) n) (min (i + 2*w) n)))).Perm arr := by
      apply overwrite_perm arr i _ (by rw [hMlen]; omega)
      rw [hMlen, show i + (min (i + 2*w) n - i) = min (i + 2*w) n by omega]
      exact hMperm
    have harr2len : (overwrite arr i (mergeLists (sliceList arr i (min (i + w) n))
        (sliceList arr (min (i + w) n) (min (i + 2*w) n)))).length = n := by
      rw [overwrite_length, hlen]
    have harr2out : ∀ q, (q < i ∨ min (i + 2*w) n ≤ q) →
        (overwrite arr i (mergeLists (sliceList arr i (min (i + w) n))
          (sliceList arr (min (i + w) n) (min (i + 2*w) n)))).getD q 0
        = arr.getD q 0 := by
      intro q hq
      exact overwrite_getD_outside _ arr i q (by rw [hMlen]; omega)
    have harr2slice : sliceList (overwrite arr i
        (mergeLists (sliceList arr i (min (i + w) n))
          (sliceList arr (min (i + w) n) (min (i + 2*w) n))))
        i (min (i + 2*w) n)
        = mergeLists (sliceList arr i (min (i + w) n))
            (sliceList arr (min (i + w) n) (min (i + 2*w) n)) := by
      have := overwrite_sliceList (mergeLists (sliceList arr i (min (i + w) n))
        (sliceList arr (min (i + w) n) (min (i + 2*w) n))) arr i
        (by rw [hMlen]; omega)
      rwa [hMlen, show i + (min (i + 2*w) n - i) = min (i + 2*w) n by omega]
        at this
    have hblocks2 : ∀ b : Nat, List.Sorted (· ≤ ·)
        (sliceList (overwrite arr i (mergeLists (sliceList arr i (min (i + w) n))
          (sliceList arr (min (i + w) n) (min (i + 2*w) n))))
          ((i + 2*w) + b*w) (min ((i + 2*w) + b*w + w) n)) := by
      intro b
      have heq : sliceList (overwrite arr i (mergeLists (sliceList arr i (min (i + w) n))
          (sliceList arr (min (i + w) n) (min (i + 2*w) n))))
          ((i + 2*w) + b*w) (min ((i + 2*w) + b*w + w) n)
          = sliceList arr ((i + 2*w) + b*w) (min ((i + 2*w) + b*w + w) n) := by
        apply sliceList_ext
        · rw [harr2len, hlen]
        · intro q hq _
          exact harr2out q (Or.inr (by omega))
      rw [heq]
      have := hblocks (b + 2)
      rwa [show i + (b + 2)*w = (i + 2*w) + b*w by ring] at this
    obtain ⟨ihperm, ihlen, ihout, ihblocks⟩ := ih
      (overwrite arr i (mergeLists (sliceList arr i (min (i + w) n))
        (sliceList arr (min (i + w) n) (min (i + 2*w) n))))
      (copyRange arr aux i (min (i + 2*w) n - i)) (i + 2*w)
      (by omega) harr2len haux2len hblocks2
    have hstep : (mergePass n w hw arr aux i).1
        = (mergePass n w hw (overwrite arr i
            (mergeLists (sliceList arr i (min (i + w) n))
              (sliceList arr (min (i + w) n) (min (i + 2*w) n))))
            (copyRange arr aux i (min (i + 2*w) n - i)) (i + 2*w)).1 := by
      conv_lhs => unfold mergePass
      rw [dif_pos hin]
      simp only []
      rw [harr2]
    rw [hstep]
    refine ⟨ihperm.trans harr2perm, ihlen, ?_, ?_⟩
    · intro q hq
      rw [ihout q (by omega)]
      exact harr2out q (Or.inl hq)
    · intro b
      cases b with
      | zero =>
        have heq0 : sliceList (mergePass n w hw (overwrite arr i
            (mergeLists (sliceList arr i (min (i + w) n))
              (sliceList arr (min (i + w) n) (min (i + 2*w) n))))
            (copyRange arr aux i (min (i + 2*w) n - i)) (i + 2*w)).1
            (i + 0*(2*w)) (min (i + 0*(2*w) + 2*w) n)
            = sliceList (overwrite arr i
                (mergeLists (sliceList arr i (min (i + w) n))
                  (sliceList arr (min (i + w) n) (min (i + 2*w) n))))
                i (min (i + 2*w) n) := by
          simp only [Nat.zero_mul, Nat.add_zero]
          apply sliceList_ext
          · rw [ihlen, harr2len]
          · intro q hq1 hq2
            exact ihout q (by omega)
        rw [heq0, harr2slice]
        exact hMsorted
      | succ b' =>
        have := ihblocks b'
        rwa [show (i + 2*w) + b'*(2*w) = i + (b'+1)*(2*w) by ring] at this

/-- The pass loop preserves the length of its aux buffer. -/
theorem mergePass_aux_length (n w : Nat) (hw : 0 < w) :
    ∀ (fuel : Nat) (arr aux : List Int) (i : Nat), n - i ≤ fuel →
      (mergePass n w hw arr aux i).2.1.length = aux.length := by
  intro fuel
  induction fuel with
  | zero =>
    intro arr aux i hfuel
    unfold mergePass
    rw [dif_neg (by omega)]
  | succ f ih =>
    intro arr aux i hfuel
    by_cases hin : i < n
    · unfold mergePass
      rw [dif_pos hin]
      simp only []
      rw [ih _ _ _ (by omega), copyRange_length]
    · unfold mergePass
      rw [dif_neg hin]

/-- The pass loop never emits a done event. -/
theorem mergePass_noDone (n w : Nat) (hw : 0 < w) :
    ∀ (fuel : Nat) (arr aux : List Int) (i : Nat), n - i ≤ fuel →
      ∀ e ∈ (mergePass n w hw arr aux i).2.2, e.isDone = false := by
  intro fuel
  induction fuel with
  | zero =>
    intro arr aux i hfuel e he
    unfold mergePass at he
    rw [dif_neg (by omega)] at he
    simp at he
  | succ f ih =>
    intro arr aux i hfuel e he
    by_cases hin : i < n
    · unfold mergePass at he
      rw [dif_pos hin] at he
      simp only [List.mem_append] at he
      rcases he with he' | he'
      · exact mergeRange_noDone _ _ _
          ((min (i + w) n - i) + (min (i + 2*w) n - min (i + w) n)) arr i
          (min (i + w) n) i (le_refl _) e he'
      · exact ih _ _ _ (by omega) e he'
    · unfold mergePass at he
      rw [dif_neg hin] at he
      simp at he

/-- Every snapshot of the pass loop replays from the running state. -/
theorem mergePass_replay (n w : Nat) (hw : 0 < w) :
    ∀ (fuel : Nat) (arr aux : List Int) (i : Nat), n - i ≤ fuel →
      replayFinal arr (mergePass n w hw arr aux i).2.2
        = some (mergePass n w hw arr aux i).1 := by
  intro fuel
  induction fuel with
  | zero =>
    intro arr aux i hfuel
    unfold mergePass
    rw [dif_neg (by omega)]
    rfl
  | succ f ih =>
    intro arr aux i hfuel
    by_cases hin : i < n
    · unfold mergePass
      rw [dif_pos hin]
      simp only []
      rw [replayFinal_append, mergeRange_replay _ _ _
        ((min (i + w) n - i) + (min (i + 2*w) n - min (i + w) n)) arr i
        (min (i + w) n) i (le_refl _), Option.some_bind]
      exact ih _ _ _ (by omega)
    · unfold mergePass
      rw [dif_neg hin]
      rfl

/-- Invariant proof of the width loop: sorted blocks of the current width
imply a fully sorted result once the width covers the array. -/
theorem mergeWidths_spec (n : Nat) :
    ∀ (fuel w : Nat) (hw : 0 < w) (arr aux : List Int),
      n - w ≤ fuel → arr.length = n → aux.length = n →
      (∀ b : Nat, List.Sorted (· ≤ ·) (sliceList arr (b*w) (min (b*w + w) n))) →
      (mergeWidths n arr aux w hw).1.Perm arr ∧
      List.Sorted (· ≤ ·) (mergeWidths n arr aux w hw).1 := by
  intro fuel
  induction fuel with
  | zero =>
    intro w hw arr aux hfuel hlen hauxlen hblocks
    unfold mergeWidths
    rw [dif_neg (by omega)]
    refine ⟨List.Perm.refl _, ?_⟩
    have hb := hblocks 0
    rw [Nat.zero_mul, Nat.zero_add, show min w n = n by omega, ← hlen,
      sliceList_full] at hb
    exact hb
  | succ f ih =>
    intro w hw arr aux hfuel hlen hauxlen hblocks
    by_cases hwn : w < n
    · unfold mergeWidths
      rw [dif_pos hwn]
      simp only []
      obtain ⟨pperm, plen, _pout, pblocks⟩ := mergePass_spec n w hw n arr aux 0
        (by omega) hlen hauxlen
        (by intro b; simpa using hblocks b)
      obtain ⟨rperm, rsort⟩ := ih (2*w) (by omega)
        (mergePass n w hw arr aux 0).1 (mergePass n w hw arr aux 0).2.1
        (by omega) plen (by rw [mergePass_aux_length n w hw n arr aux 0 (by omega),
          hauxlen])
        (by intro b; simpa using pblocks b)
      exact ⟨rperm.trans pperm, rsort⟩
    · unfold mergeWidths
      rw [dif_neg hwn]
      refine ⟨List.Perm.refl _, ?_⟩
      have hb := hblocks 0
      rw [Nat.zero_mul, Nat.zero_add, show min w n = n by omega, ← hlen,
        sliceList_full] at hb
      exact hb

/-- The width loop never emits a done event. -/
theorem mergeWidths_noDone (n : Nat) :
    ∀ (fuel w : Nat) (hw : 0 < w) (arr aux : List Int), n - w ≤ fuel →
      ∀ e ∈ (mergeWidths n arr aux w hw).2, e.isDone = false := by
  intro fuel
  induction fuel with
  | zero =>
    intro w hw arr aux hfuel e he
    unfold mergeWidths at he
    rw [dif_neg (by omega)] at he
    simp at he
  | succ f ih =>
    intro w hw arr aux hfuel e he
    by_cases hwn : w < n
    · unfold mergeWidths at he
      rw [dif_pos hwn] at he
      simp only [List.mem_append] at he
      rcases he with he' | he'
      · exact mergePass_noDone n w hw n arr aux 0 (by omega) e he'
      · exact ih (2*w) (by omega) _ _ (by omega) e he'
    · unfold mergeWidths at he
      rw [dif_neg hwn] at he
      simp at he

/-- Every snapshot of the width loop replays from the running state. -/
theorem mergeWidths_replay (n : Nat) :
    ∀ (fuel w : Nat) (hw : 0 < w) (arr aux : List Int), n - w ≤ fuel →
      replayFinal arr (mergeWidths n arr aux w hw).2
        = some (mergeWidths n arr aux w hw).1 := by
  intro fuel
  induction fuel with
  | zero =>
    intro w hw arr aux hfuel
    unfold mergeWidths
    rw [dif_neg (by omega)]
    rfl
  | succ f ih =>
    intro w hw arr aux hfuel
    by_cases hwn : w < n
    · unfold mergeWidths
      rw [dif_pos hwn]
      simp only []
      rw [replayFinal_append, mergePass_replay n w hw n arr aux 0 (by omega),
        Option.some_bind]
      exact ih (2*w) (by omega) _ _ (by omega)
    · unfold mergeWidths
      rw [dif_neg hwn]
      rfl

/-- Blocks of width one are sorted. -/
theorem blocks_width_one (arr : List Int) :
    ∀ b : Nat, List.Sorted (· ≤ ·)
      (sliceList arr (b*1) (min (b*1 + 1) arr.length)) := by
  intro b
  rw [Nat.mul_one]
  by_cases hb : b < arr.length
  · rw [show min (b + 1) arr.length = b + 1 by omega,
      sliceList_cons arr b (b+1) (by omega) hb,
      sliceList_nil arr (b+1) (b+1) (le_refl _)]
    exact List.sorted_singleton _
  · rw [sliceList_nil arr _ _ (by omega)]
    exact List.sorted_nil

/-- The merge-sort generator satisfies the sorting-run contract. -/
theorem mergeRun_ok (arr : List Int) : SortRunOk mergeRun arr := by
  obtain ⟨hperm, hsort⟩ := mergeWidths_spec arr.length arr.length 1 (by omega)
    arr arr (by omega) rfl rfl (blocks_width_one arr)
  exact ⟨hperm, hsort, (mergeWidths arr.length arr arr 1 (by omega)).2, rfl,
    mergeWidths_noDone arr.length arr.length 1 (by omega) arr arr (by omega)⟩

/-- The merge-sort event snapshots replay exactly to the final array. -/
theorem mergeRun_replay (arr : List Int) :
    replayFinal arr (merge_sort_generator arr) = some (mergeRun arr).1 := by
  show replayFinal arr ((mergeWidths arr.length arr arr 1 (by omega)).2
    ++ [Op.done (some (mergeWidths arr.length arr arr 1 (by omega)).1)]) = _
  rw [replayFinal_append,
    mergeWidths_replay arr.length arr.length 1 (by omega) arr arr (by omega)]
  simp [replayFinal, replayStep, mergeRun]

/-! ## Quick sort correctness -/

/-- Full specification of the Lomuto partition scan: the boundary moves at
most one step per iteration, the array is permuted inside [i, high) only,
everything left of the final boundary is below the pivot, and everything
from the boundary up to high is at least the pivot. -/
theorem qsInner_spec (high pivot : Int) :
    ∀ (fuel : Nat) (arr : List Int) (i j : Int),
      0 ≤ i → i ≤ j → j + fuel = high → high < (arr.length : Int) →
      (∀ q : Nat, i ≤ (q:Int) → (q:Int) < j → pivot ≤ arr.getD q 0) →
      (i ≤ (qsInner high pivot arr i j fuel).2.1 ∧
        (qsInner high pivot arr i j fuel).2.1 ≤ i + fuel) ∧
      (qsInner high pivot arr i j fuel).1.length = arr.length ∧
      (qsInner high pivot arr i j fuel).1.Perm arr ∧
      (∀ q : Nat, q < arr.length → ((q:Int) < i ∨ high ≤ (q:Int)) →
        (qsInner high pivot arr i j fuel).1.getD q 0 = arr.getD q 0) ∧
      (∀ q : Nat, i ≤ (q:Int) → (q:Int) < (qsInner high pivot arr i j fuel).2.1 →
        (qsInner high pivot arr i j fuel).1.getD q 0 < pivot) ∧
      (∀ q : Nat, (qsInner high pivot arr i j fuel).2.1 ≤ (q:Int) →
        (q:Int) < high → pivot ≤ (qsInner high pivot arr i j fuel).1.getD q 0) := by
  intro fuel
  induction fuel with
  | zero =>
    intro arr i j h0 hij hjf hhl hinv
    have h0eq : qsInner high pivot arr i j 0 = (arr, i, []) := rfl
    rw [h0eq]
    dsimp only
    refine ⟨⟨le_refl _, by omega⟩, rfl, List.Perm.refl _, fun q _ _ => rfl,
      ?_, ?_⟩
    · intro q h1 h2
      omega
    · intro q h1 h2
      exact hinv q h1 (by omega)
  | succ f ih =>
    intro arr i j h0 hij hjf hhl hinv
    have hjh : j < high := by omega
    have hi : i.toNat < arr.length := by omega
    have hj : j.toNat < arr.length := by omega
    by_cases hlt : arr.getD j.toNat 0 < pivot
    · simp only [qsInner, if_pos hlt]
      have hlen2 : (swapList arr i.toNat j.toNat).length = arr.length :=
        swapList_length arr _ _
      have harr2q : ∀ q : Nat, q ≠ i.toNat → q ≠ j.toNat →
          (swapList arr i.toNat j.toNat).getD q 0 = arr.getD q 0 := by
        intro q h1 h2
        rw [getD_swapList arr i.toNat j.toNat q hi hj, if_neg h2, if_neg h1]
      have harr2i : (swapList arr i.toNat j.toNat).getD i.toNat 0
          = arr.getD j.toNat 0 := by
        rw [getD_swapList arr i.toNat j.toNat i.toNat hi hj]
        by_cases hij2 : i.toNat = j.toNat
        · rw [if_pos hij2, hij2]
        · rw [if_neg hij2, if_pos rfl]
      have harr2j : (swapList arr i.toNat j.toNat).getD j.toNat 0
          = arr.getD i.toNat 0 := by
        rw [getD_swapList arr i.toNat j.toNat j.toNat hi hj, if_pos rfl]
      have hinv2 : ∀ q : Nat, i + 1 ≤ (q:Int) → (q:Int) < j + 1 →
          pivot ≤ (swapList arr i.toNat j.toNat).getD q 0 := by
        intro q h1 h2
        by_cases hqj : q = j.toNat
        · subst hqj
          rw [harr2j]
          exact hinv i.toNat (by omega) (by omega)
        · have hqi : q ≠ i.toNat := by omega
          rw [harr2q q hqi hqj]
          exact hinv q (by omega) (by omega)
      obtain ⟨⟨b1, b2⟩, ihlen, ihperm, ihout, ihlo, ihhi⟩ :=
        ih (swapList arr i.toNat j.toNat) (i+1) (j+1) (by omega) (by omega)
          (by omega) (by rw [hlen2]; omega) hinv2
      refine ⟨⟨by omega, by omega⟩, by rw [ihlen, hlen2], 
        ihperm.trans (swapList_perm arr _ _ hi hj), ?_, ?_, ?_⟩
      · intro q hq hcond
        rw [ihout q (by rw [hlen2]; omega) (by omega)]
        exact harr2q q (by omega) (by omega)
      · intro q h1 h2
        by_cases hqi : q = i.toNat
        · subst hqi
          rw [ihout i.toNat (by rw [hlen2]; omega) (by omega), harr2i]
          exact hlt
        · exact ihlo q (by omega) h2
      · intro q h1 h2
        exact ihhi q h1 h2
    · simp only [qsInner, if_neg hlt]
      have hinv2 : ∀ q : Nat, i ≤ (q:Int) → (q:Int) < j + 1 →
          pivot ≤ arr.getD q 0 := by
        intro q h1 h2
        by_cases hqj : q = j.toNat
        · subst hqj
          exact not_lt.mp hlt
        · exact hinv q h1 (by omega)
      obtain ⟨⟨b1, b2⟩, ihlen, ihperm, ihout, ihlo, ihhi⟩ :=
        ih arr i (j+1) h0 (by omega) (by omega) hhl hinv2
      exact ⟨⟨b1, by omega⟩, ihlen, ihperm,
        fun q hq hcond => ihout q hq hcond, ihlo, ihhi⟩

/-- The partition scan never emits a done event. -/
theorem qsInner_noDone (high pivot : Int) :
    ∀ (fuel : Nat) (arr : List Int) (i j : Int),
      ∀ e ∈ (qsInner high pivot arr i j fuel).2.2, e.isDone = false := by
  intro fuel
  induction fuel with
  | zero => intro arr i j e he; simp [qsInner] at he
  | succ f ih =>
    intro arr i j e he
    by_cases h : arr.getD j.toNat 0 < pivot
    · simp only [qsInner, if_pos h, List.mem_cons] at he
      rcases he with rfl | rfl | he'
      · rfl
      · rfl
      · exact ih _ _ _ e he'
    · simp only [qsInner, if_neg h, List.mem_cons] at he
      rcases he with rfl | he'
      · rfl
      · exact ih _ _ _ e he'

/-- Every snapshot of the partition scan replays from the running state. -/
theorem qsInner_replay (high pivot : Int) :
    ∀ (fuel : Nat) (arr : List Int) (i j : Int),
      replayFinal arr (qsInner high pivot arr i j fuel).2.2
        = some (qsInner high pivot arr i j fuel).1 := by
  intro fuel
  induction fuel with
  | zero => intro arr i j; simp [qsInner, replayFinal]
  | succ f ih =>
    intro arr i j
    by_cases h : arr.getD j.toNat 0 < pivot
    · simp only [qsInner, if_pos h, replayFinal, replayStep, if_pos rfl]
      exact ih _ _ _
    · simp only [qsInner, if_neg h, replayFinal, replayStep]
      exact ih _ _ _

/-- A permutation that fixes everything outside a window permutes the
window slice. -/
theorem perm_sliceList_of_eq_outside (l1 l2 : List Int) (a b : Nat)
    (hperm : l1.Perm l2) (hab : a ≤ b) (hbl : b ≤ l1.length)
    (hout : ∀ q, q < l1.length → (q < a ∨ b ≤ q) → l1.getD q 0 = l2.getD q 0) :
    (sliceList l1 a b).Perm (sliceList l2 a b) := by
  have hlen := hperm.length_eq
  have htake : l1.take a = l2.take a := by
    apply List.ext_getElem (by simp [hlen])
    intro t h1 h2
    rw [List.getElem_take, List.getElem_take]
    have ht : t < l1.length := by
      rw [List.length_take] at h1
      omega
    have := hout t ht (Or.inl (by rw [List.length_take] at h1; omega))
    rwa [List.getD_eq_getElem l1 0 ht, List.getD_eq_getElem l2 0 (by omega)]
      at this
  have hdrop : l1.drop b = l2.drop b := by
    apply List.ext_getElem (by simp [hlen])
    intro t h1 h2
    rw [List.getElem_drop, List.getElem_drop]
    have ht : b + t < l1.length := by
      rw [List.length_drop] at h1
      omega
    have := hout (b + t) ht (Or.inr (by omega))
    rwa [List.getD_eq_getElem l1 0 ht, List.getD_eq_getElem l2 0 (by omega)]
      at this
  have e1 : l1.take a ++ (sliceList l1 a b ++ l1.drop b) = l1 := by
    conv_rhs => rw [take_slice_drop l1 a b hab hbl]
    rw [List.append_assoc]
  have e2 : l2.take a ++ (sliceList l2 a b ++ l2.drop b) = l2 := by
    conv_rhs => rw [take_slice_drop l2 a b hab (by omega)]
    rw [List.append_assoc]
  have h := hperm
  rw [← e1, ← e2, htake] at h
  have h2 := (List.perm_append_left_iff _).mp h
  rw [hdrop] at h2
  exact (List.perm_append_right_iff _).mp h2

/-- Replaying a swap event whose snapshot is the swap of the current state
steps to the snapshot. -/
theorem replayFinal_swap_cons (cur : List Int) (i j : Nat) (es : List Op) :
    replayFinal cur (Op.swap i j (swapList cur i j) :: es)
      = replayFinal (swapList cur i j) es := by
  simp [replayFinal, replayStep]

/-- The main quicksort loop never emits a done event. -/
theorem quickLoop_noDone : ∀ (arr : List Int) (stack : List (Int × Int)),
    ∀ e ∈ (quickLoop arr stack).2, e.isDone = false := by
  intro arr stack
  induction arr, stack using quickLoop.induct with
  | case1 arr => intro e he; simp [quickLoop] at he
  | case2 arr low high rest hlh pivot part p arr3 ih =>
    intro e he
    unfold quickLoop at he
    rw [dif_pos hlh] at he
    simp only [List.mem_append, List.mem_cons] at he
    rcases he with he' | rfl | he'
    · exact qsInner_noDone _ _ _ _ _ _ e he'
    · rfl
    · exact ih e he'
  | case3 arr low high rest hlh ih =>
    intro e he
    unfold quickLoop at he
    rw [dif_neg hlh] at he
    exact ih e he

/-- Every snapshot of the main quicksort loop replays from the running
state. -/
theorem quickLoop_replay : ∀ (arr : List Int) (stack : List (Int × Int)),
    replayFinal arr (quickLoop arr stack).2 = some (quickLoop arr stack).1 := by
  intro arr stack
  induction arr, stack using quickLoop.induct with
  | case1 arr => simp [quickLoop, replayFinal]
  | case2 arr low high rest hlh pivot part p arr3 ih =>
    unfold quickLoop
    rw [dif_pos hlh]
    rw [replayFinal_append, qsInner_replay, Option.some_bind,
      replayFinal_swap_cons]
    exact ih
  | case3 arr low high rest hlh ih =>
    unfold quickLoop
    rw [dif_neg hlh]
    exact ih

/-- Introduction form for InRange on a literal pair. -/
theorem inRange_mk (a b : Int) (q : Nat) (h1 : a ≤ (q : Int))
    (h2 : (q : Int) ≤ b) : InRange (a, b) q := ⟨h1, h2⟩

/-- Introduction form for SameRange. -/
theorem sameRange_intro (stack : List (Int × Int)) (e : Int × Int)
    (he : e ∈ stack) (p q : Nat) (h1 : InRange e p) (h2 : InRange e q) :
    SameRange stack p q := ⟨e, he, h1, h2⟩

/-- Main loop invariant of quick_sort_generator: from a state that is sorted
outside the pairwise-disjoint pending ranges, the loop returns a permutation
of the array that is sorted at every pair of indices. -/
theorem quickLoop_spec : ∀ (arr : List Int) (stack : List (Int × Int)),
    StackDisjoint stack →
    (∀ e ∈ stack, 0 ≤ e.1 ∧ e.2 < (arr.length : Int)) →
    AlmostSorted arr stack →
    (quickLoop arr stack).1.Perm arr ∧
    (∀ p q : Nat, p < q → q < (quickLoop arr stack).1.length →
      (quickLoop arr stack).1.getD p 0 ≤ (quickLoop arr stack).1.getD q 0) := by
  intro arr stack
  induction arr, stack using quickLoop.induct with
  | case1 arr =>
    intro hd hb hAS
    have he : quickLoop arr [] = (arr, []) := by simp [quickLoop]
    rw [he]
    refine ⟨List.Perm.refl _, ?_⟩
    intro pp qq hpq hq
    exact hAS pp qq hpq hq (by rintro ⟨e, he', _⟩; simp at he')
  | case2 arr low high rest hlh pivot part p arr3 ih =>
    intro hd hb hAS
    obtain ⟨hlow0, hhigh⟩ := hb (low, high) (List.mem_cons_self _ _)
    obtain ⟨hdhead, hdrest⟩ := List.pairwise_cons.mp hd
    have hspec := qsInner_spec high pivot ((high - low).toNat) arr low low
      hlow0 le_rfl (by omega) hhigh
      (fun q hq1 hq2 => absurd hq2 (not_lt.mpr hq1))
    obtain ⟨⟨hp_lo, hp_hi⟩, hplen, hpperm, hpout, hplt, hpge⟩ := hspec
    have h1 : low ≤ p := hp_lo
    have h2' : p ≤ low + ((high - low).toNat : Int) := hp_hi
    have h2 : p ≤ high := by omega
    have hplen' : part.1.length = arr.length := hplen
    have hpperm' : part.1.Perm arr := hpperm
    have hpout' : ∀ q : Nat, q < arr.length → ((q : Int) < low ∨ high ≤ (q : Int)) →
        part.1.getD q 0 = arr.getD q 0 := hpout
    have hplt' : ∀ q : Nat, low ≤ (q : Int) → (q : Int) < p →
        part.1.getD q 0 < pivot := hplt
    have hpge' : ∀ q : Nat, p ≤ (q : Int) → (q : Int) < high →
        pivot ≤ part.1.getD q 0 := hpge
    have hpnat : p.toNat < part.1.length := by rw [hplen']; omega
    have hhnat : high.toNat < part.1.length := by rw [hplen']; omega
    have ha3len : arr3.length = arr.length :=
      (swapList_length part.1 p.toNat high.toNat).trans hplen'
    have ha3perm : arr3.Perm arr :=
      (swapList_perm part.1 p.toNat high.toNat hpnat hhnat).trans hpperm'
    have ha3getD : ∀ q : Nat, arr3.getD q 0 =
        if q = high.toNat then part.1.getD p.toNat 0
        else if q = p.toNat then part.1.getD high.toNat 0
        else part.1.getD q 0 :=
      fun q => getD_swapList part.1 p.toNat high.toNat q hpnat hhnat
    have hout3 : ∀ q : Nat, q < arr.length → ((q : Int) < low ∨ high < (q : Int)) →
        arr3.getD q 0 = arr.getD q 0 := by
      intro q hq hcond
      rw [ha3getD q, if_neg (by omega), if_neg (by omega)]
      exact hpout' q hq (hcond.imp id le_of_lt)
    have hpiv3 : arr3.getD p.toNat 0 = pivot := by
      rw [ha3getD p.toNat]
      by_cases hph : p.toNat = high.toNat
      · rw [if_pos hph, hph, hpout' high.toNat (by omega) (Or.inr (by omega))]
      · rw [if_neg hph, if_pos rfl,
          hpout' high.toNat (by omega) (Or.inr (by omega))]
    have hlt3 : ∀ q : Nat, low ≤ (q : Int) → (q : Int) < p →
        arr3.getD q 0 < pivot := by
      intro q hq1 hq2
      rw [ha3getD q, if_neg (by omega), if_neg (by omega)]
      exact hplt' q hq1 hq2
    have hge3 : ∀ q : Nat, p < (q : Int) → (q : Int) ≤ high →
        pivot ≤ arr3.getD q 0 := by
      intro q hq1 hq2
      rw [ha3getD q]
      by_cases hqh : q = high.toNat
      · rw [if_pos hqh]
        exact hpge' p.toNat (by omega) (by omega)
      · rw [if_neg hqh, if_neg (by omega)]
        exact hpge' q (by omega) (by omega)
    have hd2 : StackDisjoint ((p + 1, high) :: (low, p - 1) :: rest) := by
      unfold StackDisjoint
      rw [List.pairwise_cons, List.pairwise_cons]
      refine ⟨?_, ?_, hdrest⟩
      · intro e he
        rcases List.mem_cons.mp he with rfl | he'
        · right; dsimp only; omega
        · rcases hdhead e he' with hc | hc
          · left; dsimp only at hc ⊢; omega
          · right; dsimp only at hc ⊢; omega
      · intro e he
        rcases hdhead e he with hc | hc
        · left; dsimp only at hc ⊢; omega
        · right; dsimp only at hc ⊢; omega
    have hb2 : ∀ e ∈ (p + 1, high) :: (low, p - 1) :: rest,
        0 ≤ e.1 ∧ e.2 < (arr3.length : Int) := by
      intro e he
      rw [ha3len]
      rcases List.mem_cons.mp he with rfl | he'
      · exact ⟨by omega, hhigh⟩
      rcases List.mem_cons.mp he' with rfl | he''
      · exact ⟨hlow0, by omega⟩
      · exact hb e (List.mem_cons_of_mem _ he'')
    have hslice : (sliceList arr3 low.toNat (high.toNat + 1)).Perm
        (sliceList arr low.toNat (high.toNat + 1)) := by
      apply perm_sliceList_of_eq_outside arr3 arr low.toNat (high.toNat + 1)
        ha3perm (by omega) (by rw [ha3len]; omega)
      intro q hq' hcond
      have hq'' : q < arr.length := by omega
      rcases hcond with hc | hc
      · exact hout3 q hq'' (Or.inl (by omega))
      · exact hout3 q hq'' (Or.inr (by omega))
    have hmem_window : ∀ t : Nat, low ≤ (t : Int) → (t : Int) ≤ high →
        ∃ s : Nat, low ≤ (s : Int) ∧ (s : Int) ≤ high ∧
          arr3.getD t 0 = arr.getD s 0 := by
      intro t ht1 ht2
      have htv : arr3.getD t 0 ∈ sliceList arr3 low.toNat (high.toNat + 1) :=
        getD_mem_sliceList arr3 low.toNat (high.toNat + 1) t (by omega)
          (by omega) (by rw [ha3len]; omega)
      have htv2 : arr3.getD t 0 ∈ sliceList arr low.toNat (high.toNat + 1) :=
        hslice.mem_iff.mp htv
      obtain ⟨u, hu, huv⟩ := List.mem_iff_getElem.mp htv2
      have hslen : (sliceList arr low.toNat (high.toNat + 1)).length =
          high.toNat + 1 - low.toNat :=
        sliceList_length arr _ _ (by omega) (by omega)
      have hu' : u < high.toNat + 1 - low.toNat := by rw [← hslen]; exact hu
      refine ⟨low.toNat + u, by omega, by omega, ?_⟩
      rw [← huv]
      exact getElem_sliceList arr low.toNat (high.toNat + 1) u hu (by omega)
    have hAS2 : AlmostSorted arr3 ((p + 1, high) :: (low, p - 1) :: rest) := by
      intro pp qq hpq hq hns
      rw [ha3len] at hq
      have hpq' : (pp : Int) < (qq : Int) := by exact_mod_cast hpq
      by_cases hppin : low ≤ (pp : Int) ∧ (pp : Int) ≤ high
      · obtain ⟨hpa, hpb⟩ := hppin
        by_cases hqqin : low ≤ (qq : Int) ∧ (qq : Int) ≤ high
        · obtain ⟨hqa, hqb⟩ := hqqin
          have hnot1 : ¬((pp : Int) < p ∧ (qq : Int) < p) := by
            rintro ⟨ha', hb'⟩
            exact hns (sameRange_intro _ (low, p - 1)
              (List.mem_cons_of_mem _ (List.mem_cons_self _ _)) pp qq
              (inRange_mk _ _ _ hpa (by omega)) (inRange_mk _ _ _ hqa (by omega)))
          have hnot2 : ¬(p < (pp : Int) ∧ p < (qq : Int)) := by
            rintro ⟨ha', hb'⟩
            exact hns (sameRange_intro _ (p + 1, high) (List.mem_cons_self _ _)
              pp qq (inRange_mk _ _ _ (by omega) hpb)
              (inRange_mk _ _ _ (by omega) hqb))
          rcases lt_trichotomy ((qq : Int)) p with hq' | hq' | hq'
          · exact absurd ⟨by omega, hq'⟩ hnot1
          · have hqv : arr3.getD qq 0 = pivot := by
              have hqq' : qq = p.toNat := by omega
              rw [hqq']; exact hpiv3
            have hpl := hlt3 pp hpa (by omega)
            omega
          · have hge := hge3 qq hq' hqb
            rcases lt_trichotomy ((pp : Int)) p with hp' | hp' | hp'
            · have := hlt3 pp hpa hp'
              omega
            · have hpv : arr3.getD pp 0 = pivot := by
                have hpp' : pp = p.toNat := by omega
                rw [hpp']; exact hpiv3
              omega
            · exact absurd ⟨hp', hq'⟩ hnot2
        · have hqhigh : high < (qq : Int) := by
            by_contra hcon
            exact hqqin ⟨by omega, by omega⟩
          have hq3 : arr3.getD qq 0 = arr.getD qq 0 := hout3 qq hq (Or.inr hqhigh)
          obtain ⟨s, hs1, hs2, hsv⟩ := hmem_window pp hpa hpb
          rw [hq3, hsv]
          apply hAS s qq (by omega) hq
          intro hsr
          obtain ⟨e, he, he1, he2⟩ := hsr
          rcases List.mem_cons.mp he with rfl | he'
          · obtain ⟨h2a, h2b⟩ := he2
            dsimp only at h2b
            omega
          · rcases hdhead e he' with hc | hc
            · obtain ⟨h1a, h1b⟩ := he1
              dsimp only at hc
              omega
            · obtain ⟨h1a, h1b⟩ := he1
              dsimp only at hc
              omega
      · by_cases hqqin : low ≤ (qq : Int) ∧ (qq : Int) ≤ high
        · obtain ⟨hqa, hqb⟩ := hqqin
          have hplow : (pp : Int) < low := by
            by_contra hcon
            exact hppin ⟨by omega, by omega⟩
          have hp3 : arr3.getD pp 0 = arr.getD pp 0 :=
            hout3 pp (by omega) (Or.inl hplow)
          obtain ⟨s, hs1, hs2, hsv⟩ := hmem_window qq hqa hqb
          rw [hp3, hsv]
          apply hAS pp s (by omega) (by omega)
          intro hsr
          obtain ⟨e, he, he1, he2⟩ := hsr
          rcases List.mem_cons.mp he with rfl | he'
          · obtain ⟨h1a, h1b⟩ := he1
            dsimp only at h1a
            omega
          · rcases hdhead e he' with hc | hc
            · obtain ⟨h2a, h2b⟩ := he2
              dsimp only at hc
              omega
            · obtain ⟨h2a, h2b⟩ := he2
              dsimp only at hc
              omega
        · have hpout2 : (pp : Int) < low ∨ high < (pp : Int) := by
            by_contra hcon
            push_neg at hcon
            exact hppin ⟨hcon.1, hcon.2⟩
          have hqout2 : (qq : Int) < low ∨ high < (qq : Int) := by
            by_contra hcon
            push_neg at hcon
            exact hqqin ⟨hcon.1, hcon.2⟩
          rw [hout3 pp (by omega) hpout2, hout3 qq hq hqout2]
          apply hAS pp qq hpq hq
          intro hsr
          obtain ⟨e, he, he1, he2⟩ := hsr
          rcases List.mem_cons.mp he with rfl | he'
          · obtain ⟨h1a, h1b⟩ := he1
            obtain ⟨h2a, h2b⟩ := he2
            dsimp only at h1a h1b h2a h2b
            rcases hpout2 with hx | hx <;> rcases hqout2 with hy | hy <;> omega
          · exact hns (sameRange_intro _ e
              (List.mem_cons_of_mem _ (List.mem_cons_of_mem _ he')) pp qq he1 he2)
    obtain ⟨hrperm, hrsort⟩ := ih hd2 hb2 hAS2
    rw [quickLoop.eq_2, dif_pos hlh]
    refine ⟨?_, ?_⟩
    · exact hrperm.trans ha3perm
    · intro a b hab hbl
      exact hrsort a b hab hbl
  | case3 arr low high rest hlh ih =>
    intro hd hb hAS
    have he : quickLoop arr ((low, high) :: rest) = quickLoop arr rest := by
      rw [quickLoop.eq_2, dif_neg hlh]
    rw [he]
    apply ih
    · exact (List.pairwise_cons.mp hd).2
    · intro e he'
      exact hb e (List.mem_cons_of_mem _ he')
    · intro pp qq hpq hq hns
      apply hAS pp qq hpq hq
      rintro ⟨e, he', hr1, hr2⟩
      rcases List.mem_cons.mp he' with rfl | he''
      · obtain ⟨h1a, h1b⟩ := hr1
        obtain ⟨h2a, h2b⟩ := hr2
        dsimp only at h1a h1b h2a h2b
        have hpq' : (pp : Int) < (qq : Int) := by exact_mod_cast hpq
        exact hlh (by omega)
      · exact hns ⟨e, he'', hr1, hr2⟩

/-- quick_sort_generator satisfies the sorting-run contract: the final array
is a sorted permutation of the input and the done event comes last, carrying
the final array. -/
theorem quickRun_ok (arr : List Int) : SortRunOk quickRun arr := by
  have hd : StackDisjoint [((0 : Int), (arr.length : Int) - 1)] := by
    unfold StackDisjoint
    simp
  have hb : ∀ e ∈ [((0 : Int), (arr.length : Int) - 1)],
      0 ≤ e.1 ∧ e.2 < (arr.length : Int) := by
    intro e he
    rcases List.mem_cons.mp he with rfl | he'
    · exact ⟨le_rfl, by omega⟩
    · simp at he'
  have hAS : AlmostSorted arr [((0 : Int), (arr.length : Int) - 1)] := by
    intro pp qq hpq hq hns
    exact absurd (sameRange_intro _ ((0 : Int), (arr.length : Int) - 1)
      (List.mem_cons_self _ _) pp qq
      (inRange_mk _ _ _ (by omega) (by omega))
      (inRange_mk _ _ _ (by omega) (by omega))) hns
  obtain ⟨hperm, hsort⟩ :=
    quickLoop_spec arr [(0, (arr.length : Int) - 1)] hd hb hAS
  refine ⟨hperm, sorted_of_getD _ ?_, (quickLoop arr [(0, (arr.length : Int) - 1)]).2,
    rfl, quickLoop_noDone arr _⟩
  intro pp qq h1 h2
  have h2' : qq < (quickLoop arr [(0, (arr.length : Int) - 1)]).1.length := h2
  exact hsort pp qq h1 h2'

/-- Every snapshot of quick_sort_generator replays from the initial array,
and the final snapshot is the returned array. -/
theorem quickRun_replay (arr : List Int) :
    replayFinal arr (quick_sort_generator arr) = some (quickRun arr).1 := by
  show replayFinal arr ((quickLoop arr [(0, (arr.length : Int) - 1)]).2
    ++ [Op.done (some (quickLoop arr [(0, (arr.length : Int) - 1)]).1)]) = _
  rw [replayFinal_append, quickLoop_replay]
  simp [replayFinal, replayStep, quickRun]

/-! ## Subset-sum chosen-set consistency -/

/-- Reading a replicate of false always gives false. -/
theorem getD_replicate_false (n p : Nat) :
    (List.replicate n false).getD p false = false := by
  rw [List.getD_eq_getElem?_getD, List.getElem?_replicate]
  by_cases h : p < n <;> simp [h]

/-- The empty chosen mask selects nothing. -/
theorem sumChosen_replicate_false : ∀ (arr : List Int),
    sumChosen arr (List.replicate arr.length false) = 0 := by
  intro arr
  induction arr with
  | nil => rfl
  | cons a as ih => simp [List.replicate, sumChosen, ih]

/-- Reading a boolean mask at the freshly set position. -/
theorem getD_set_self_bool (l : List Bool) (i : Nat) (b : Bool)
    (h : i < l.length) : (l.set i b).getD i false = b := by
  rw [List.getD_eq_getElem (l.set i b) false (by rwa [List.length_set])]
  exact List.getElem_set_self _

/-- Reading a boolean mask away from the set position. -/
theorem getD_set_ne_bool (l : List Bool) (i p : Nat) (b : Bool) (h : p ≠ i) :
    (l.set i b).getD p false = l.getD p false := by
  rw [List.getD_eq_getElem?_getD, List.getD_eq_getElem?_getD,
    List.getElem?_set_ne (fun hc => h hc.symm)]

/-- Setting an in-range position of the mask adjusts the chosen sum by the
difference of the old and new contributions at that position. -/
theorem sumChosen_set : ∀ (arr : List Int) (ch : List Bool) (i : Nat) (b : Bool),
    i < ch.length → ch.length = arr.length →
    sumChosen arr (ch.set i b) = sumChosen arr ch
      - (if ch.getD i false then arr.getD i 0 else 0)
      + (if b then arr.getD i 0 else 0) := by
  intro arr
  induction arr with
  | nil =>
    intro ch i b h1 h2
    rw [List.length_nil] at h2
    omega
  | cons a as ih =>
    intro ch i b h1 h2
    cases ch with
    | nil => simp at h1
    | cons c cs =>
      cases i with
      | zero =>
        simp only [List.set, sumChosen, List.getD_cons_zero]
        cases b <;> cases c <;> simp <;> ring
      | succ n =>
        simp only [List.set, sumChosen, List.getD_cons_succ]
        rw [ih cs n b (by simpa using h1) (by simpa using h2)]
        ring

/-- Setting a position that already holds false to false leaves the mask
unchanged. -/
theorem set_false_id (l : List Bool) (i : Nat) (h : l.getD i false = false) :
    l.set i false = l := by
  apply List.ext_getElem (by simp)
  intro t h1 h2
  by_cases ht : t = i
  · subst ht
    rw [List.getElem_set_self]
    rw [List.getD_eq_getElem l false h2] at h
    exact h.symm
  · exact List.getElem_set_ne (fun hc => ht hc.symm) _

/-- The backtracking recursion restores its chosen mask, and every decide
event's snapshot already holds the decided choice at the decided index while
its carried sum is the chosen sum of the snapshot; every check event's
carried sum is the chosen sum of its snapshot. -/
theorem backtrack_consistent :
    ∀ (fuel : Nat) (arr : List Int) (ch : List Bool) (i : Nat) (sum : Int),
      ch.length = arr.length → i + fuel = arr.length →
      (∀ p : Nat, i ≤ p → ch.getD p false = false) →
      sum = sumChosen arr ch →
      (backtrack arr ch i sum fuel).1 = ch ∧
      (∀ e ∈ (backtrack arr ch i sum fuel).2,
        (∀ idx c cs sm, e = Op.decide idx c cs sm →
          cs.length = arr.length ∧ cs.getD idx false = c ∧ sm = sumChosen arr cs) ∧
        (∀ cs sm, e = Op.check cs sm →
          cs.length = arr.length ∧ sm = sumChosen arr cs)) := by
  intro fuel
  induction fuel with
  | zero =>
    intro arr ch i sum hlen hfuel hup hsum
    refine ⟨rfl, ?_⟩
    intro e he
    simp only [backtrack, List.mem_singleton] at he
    subst he
    constructor
    · intro idx c cs sm hcontra
      cases hcontra
    · intro cs sm heq
      cases heq
      exact ⟨hlen, hsum⟩
  | succ f ih =>
    intro arr ch i sum hlen hfuel hup hsum
    have hi : i < arr.length := by omega
    have hch1id : ch.set i false = ch := set_false_id ch i (hup i le_rfl)
    have hch1len : (ch.set i false).length = arr.length := by
      rw [List.length_set]; exact hlen
    have hch1up : ∀ p : Nat, i + 1 ≤ p → (ch.set i false).getD p false = false := by
      intro p hp
      rw [getD_set_ne_bool ch i p false (by omega)]
      exact hup p (by omega)
    have hch1sum : sum = sumChosen arr (ch.set i false) := by
      rw [hch1id]; exact hsum
    obtain ⟨hr1, he1⟩ := ih arr (ch.set i false) (i + 1) sum hch1len (by omega)
      hch1up hch1sum
    have hch2eq : (backtrack arr (ch.set i false) (i + 1) sum f).1.set i true
        = ch.set i true := by
      rw [hr1, hch1id]
    have hch2len : ((backtrack arr (ch.set i false) (i + 1) sum f).1.set i true).length
        = arr.length := by
      rw [hch2eq, List.length_set]; exact hlen
    have hch2up : ∀ p : Nat, i + 1 ≤ p →
        ((backtrack arr (ch.set i false) (i + 1) sum f).1.set i true).getD p false
          = false := by
      intro p hp
      rw [hch2eq, getD_set_ne_bool ch i p true (by omega)]
      exact hup p (by omega)
    have hch2sum : sum + arr.getD i 0
        = sumChosen arr ((backtrack arr (ch.set i false) (i + 1) sum f).1.set i true) := by
      rw [hch2eq, sumChosen_set arr ch i true (by omega) hlen, hup i le_rfl]
      simp [hsum]
    obtain ⟨hr2, he2⟩ := ih arr
      ((backtrack arr (ch.set i false) (i + 1) sum f).1.set i true) (i + 1)
      (sum + arr.getD i 0) hch2len (by omega) hch2up hch2sum
    constructor
    · show (backtrack arr _ (i + 1) _ f).1.set i false = ch
      rw [hr2, hch2eq, List.set_set]
      exact hch1id
    · intro e he
      simp only [backtrack, List.mem_cons, List.mem_append] at he
      rcases he with rfl | he' | rfl | he'
      · constructor
        · intro idx c cs sm heq
          cases heq
          refine ⟨hch1len, ?_, hch1sum⟩
          rw [getD_set_self_bool ch i false (by omega)]
        · intro cs sm heq
          cases heq
      · exact he1 e he'
      · constructor
        · intro idx c cs sm heq
          cases heq
          refine ⟨hch2len, ?_, hch2sum⟩
          rw [hch2eq, getD_set_self_bool ch i true (by omega)]
        · intro cs sm heq
          cases heq
      · exact he2 e he'

/-- Chosen-set snapshot consistency for the whole subset-sum generator:
every decide snapshot holds its decided choice and carries the chosen sum of
its snapshot; every check and solution snapshot carries the chosen sum of
its snapshot. -/
theorem subset_events_consistent (arr : List Int) (target : Int) :
    ∀ e ∈ subset_sum_generator arr target,
      (∀ idx c cs sm, e = Op.decide idx c cs sm →
        cs.length = arr.length ∧ cs.getD idx false = c ∧ sm = sumChosen arr cs) ∧
      (∀ cs sm, e = Op.check cs sm →
        cs.length = arr.length ∧ sm = sumChosen arr cs) ∧
      (∀ cs sm, e = Op.solution cs sm →
        cs.length = arr.length ∧ sm = sumChosen arr cs) := by
  intro e he
  simp only [subset_sum_generator, List.mem_append, List.mem_singleton,
    List.mem_map] at he
  obtain ⟨hrest, hev⟩ := backtrack_consistent arr.length arr
    (List.replicate arr.length false) 0 0 (by simp) (by omega)
    (fun p _ => getD_replicate_false arr.length p)
    (sumChosen_replicate_false arr).symm
  rcases he with ⟨e', he', rfl⟩ | rfl
  · obtain ⟨hd', hc'⟩ := hev e' he'
    cases e' with
    | check ch s =>
      simp only [reclassify]
      by_cases hs : s = target
      · rw [if_pos hs]
        refine ⟨?_, ?_, ?_⟩
        · intro idx c cs sm heq; cases heq
        · intro cs sm heq; cases heq
        · intro cs sm heq
          cases heq
          exact hc' ch s rfl
      · rw [if_neg hs]
        refine ⟨?_, ?_, ?_⟩
        · intro idx c cs sm heq; cases heq
        · intro cs sm heq
          cases heq
          exact hc' ch s rfl
        · intro cs sm heq; cases heq
    | decide idx c cs sm =>
      refine ⟨?_, ?_, ?_⟩
      · intro idx' c' cs' sm' heq
        simp only [reclassify] at heq
        cases heq
        exact hd' idx c cs sm rfl
      · intro cs' sm' heq; simp [reclassify] at heq
      · intro cs' sm' heq; simp [reclassify] at heq
    | solution ch s =>
      exact absurd he' (backtrack_no_solution _ _ _ _ _ ch s)
    | compare a b =>
      exact ⟨fun _ _ _ _ heq => by simp [reclassify] at heq,
        fun _ _ heq => by simp [reclassify] at heq,
        fun _ _ heq => by simp [reclassify] at heq⟩
    | highlight a =>
      exact ⟨fun _ _ _ _ heq => by simp [reclassify] at heq,
        fun _ _ heq => by simp [reclassify] at heq,
        fun _ _ heq => by simp [reclassify] at heq⟩
    | swap a b arr2 =>
      exact ⟨fun _ _ _ _ heq => by simp [reclassify] at heq,
        fun _ _ heq => by simp [reclassify] at heq,
        fun _ _ heq => by simp [reclassify] at heq⟩
    | shift a b arr2 =>
      exact ⟨fun _ _ _ _ heq => by simp [reclassify] at heq,
        fun _ _ heq => by simp [reclassify] at heq,
        fun _ _ heq => by simp [reclassify] at heq⟩
    | insert a arr2 =>
      exact ⟨fun _ _ _ _ heq => by simp [reclassify] at heq,
        fun _ _ heq => by simp [reclassify] at heq,
        fun _ _ heq => by simp [reclassify] at heq⟩
    | mergewrite a v arr2 =>
      exact ⟨fun _ _ _ _ heq => by simp [reclassify] at heq,
        fun _ _ heq => by simp [reclassify] at heq,
        fun _ _ heq => by simp [reclassify] at heq⟩
    | done oa =>
      exact ⟨fun _ _ _ _ heq => by simp [reclassify] at heq,
        fun _ _ heq => by simp [reclassify] at heq,
        fun _ _ heq => by simp [reclassify] at heq⟩
  · refine ⟨?_, ?_, ?_⟩
    · intro idx c cs sm heq; cases heq
    · intro cs sm heq; cases heq
    · intro cs sm heq; cases heq

/-! ## Claim C1 and C6 theorems -/

/-- C1: for every input array, each of the five sorting generators (bubble,
selection, insertion, merge, quick), consumed to exhaustion, yields a final
array that is a permutation of the input and sorted ascending, and its event
sequence is done-free events followed by exactly one done event — the last
event — carrying the final array. -/
theorem C1_sorting_generators (arr : List Int) :
    SortRunOk bubbleRun arr ∧ SortRunOk selectionRun arr ∧
    SortRunOk insertionRun arr ∧ SortRunOk mergeRun arr ∧
    SortRunOk quickRun arr :=
  ⟨bubbleRun_ok arr, selectionRun_ok arr, insertionRun_ok arr,
   mergeRun_ok arr, quickRun_ok arr⟩

/-- C6: array snapshots attached to sorting-generator events reflect the
working array immediately after each event's effect: replaying every event's
effect from the input array succeeds — each snapshot equals the state
rebuilt from the events before it — and lands on the generator's final
array.  Chosen-set snapshots of the subset-sum generator reflect the state
after the event's effect likewise: a decide snapshot already holds the
decided choice at the decided index, and every decide, check and solution
event's carried sum is the chosen sum of its own snapshot. -/
theorem C6_snapshots_consistent (arr : List Int) (target : Int) :
    replayFinal arr (bubble_sort_generator arr) = some (bubbleRun arr).1 ∧
    replayFinal arr (selection_sort_generator arr) = some (selectionRun arr).1 ∧
    replayFinal arr (insertion_sort_generator arr) = some (insertionRun arr).1 ∧
    replayFinal arr (merge_sort_generator arr) = some (mergeRun arr).1 ∧
    replayFinal arr (quick_sort_generator arr) = some (quickRun arr).1 ∧
    (∀ e ∈ subset_sum_generator arr target,
      (∀ idx c cs sm, e = Op.decide idx c cs sm →
        cs.length = arr.length ∧ cs.getD idx false = c ∧ sm = sumChosen arr cs) ∧
      (∀ cs sm, e = Op.check cs sm →
        cs.length = arr.length ∧ sm = sumChosen arr cs) ∧
      (∀ cs sm, e = Op.solution cs sm →
        cs.length = arr.length ∧ sm = sumChosen arr cs)) :=
  ⟨bubbleRun_replay arr, selectionRun_replay arr, insertionRun_replay arr,
   mergeRun_replay arr, quickRun_replay arr, subset_events_consistent arr target⟩

/-- Witness for C6 on arr = [2, 3], target = 5: the include-decide at index 1
along the all-include path is an emitted event; its snapshot [true, true]
holds the decided choice true at index 1, and its carried sum 5 is the chosen
sum of the snapshot. -/
theorem C6_snapshots_consistent_witness :
    Op.decide 1 true [true, true] 5 ∈ subset_sum_generator [2, 3] 5 ∧
    ([true, true] : List Bool).length = ([2, 3] : List Int).length ∧
    ([true, true] : List Bool).getD 1 false = true ∧
    (5 : Int) = sumChosen [2, 3] [true, true] := by
  have hmem : Op.decide 1 true [true, true] 5 ∈ subset_sum_generator [2, 3] 5 := by
    decide
  have h := ((C6_snapshots_consistent [2, 3] 5).2.2.2.2.2
    (Op.decide 1 true [true, true] 5) hmem).1 1 true [true, true] 5 rfl
  exact ⟨hmem, h.1, h.2.1, h.2.2⟩
